import Mathlib

/-!
Verification of the mkr_mt_lib concurrency library (TypeDefinition/mkr_mt_lib).

This file gives a shallow embedding, in Lean 4, of the sequential semantics of
the library's core components, translated from the C++ sources:

* `threadsafe_queue`     — src/mt/container/threadsafe_queue.h (fine-grained FIFO
  queue with a sentinel tail node; the node chain is modelled as the list of
  values held by the non-sentinel nodes, head first).
* `threadsafe_stack`     — src/container/threadsafe_stack.h (coarse-locked LIFO
  stack; the node chain is modelled as the list of values, top first).
* `threadsafe_list`      — src/mt/container/threadsafe_list.h (hand-over-hand
  locked singly linked list; its traversal operations are modelled as functions
  on the list of stored values).
* `threadsafe_hashtable` — src/container/threadsafe_hashtable.h and
  src/mt/container/threadsafe_hashtable.h (fixed-bucket concurrent hash map).
* `task`                 — src/thread_pool/task.h (type-erased move-only task).
* `thread_pool`          — src/thread_pool/thread_pool.h / .cpp (work-stealing
  pool: global FIFO queue, per-worker LIFO stacks, worker-identity lookup,
  submission routing, cooperative draining, shutdown).

Machine pointers that may be null (`std::shared_ptr`, `std::unique_ptr` used as
nullable handles) are modelled as `Option`; `std::size_t` values as `Nat`.
Mutexes, condition variables and memory fences order concurrent interleavings
and have no content in the sequential model, so each C++ critical section
becomes one atomic Lean state transition.

The file is organised as definitions first, theorems second.
-/

namespace mkr

/-! ## Definitions -/

/-! ### Threadsafe FIFO queue (src/mt/container/threadsafe_queue.h)

The C++ queue is a singly-linked chain `head_ … tail_` where `tail_` is a
value-less sentinel; `head_ == tail_` iff the queue is empty.  `nodes` below
lists the values of the non-sentinel nodes from `head_` onwards, so
`nodes = []` corresponds exactly to `head_ == tail_`. -/

structure threadsafe_queue (α : Type u) : Type u where
  /-- Values of the non-sentinel nodes, head first.  The sentinel `tail_`
  carries no value and is left implicit. -/
  nodes : List α
  /-- The atomic element counter `num_elements_`. -/
  num_elements_ : Nat

namespace threadsafe_queue

/-- The freshly constructed queue: `head_ == tail_` (a single sentinel node)
and a zero counter. -/
def empty : threadsafe_queue α := ⟨[], 0⟩

/-- Internal `do_push`: store the value in the current sentinel, append a new
sentinel, advance `tail_`, increment the counter.  At the value level this
appends the value at the back. -/
def do_push (q : threadsafe_queue α) (v : α) : threadsafe_queue α :=
  ⟨q.nodes ++ [v], q.num_elements_ + 1⟩

/-- Public `push`: `do_push` of a freshly allocated (`make_shared`) value,
followed by a condition-variable notify (no content sequentially). -/
def push (q : threadsafe_queue α) (v : α) : threadsafe_queue α :=
  q.do_push v

/-- Internal `do_pop`: unlink the head node and return its value.  The source
only calls it after checking `head_ != get_tail()`; the `[]` branch makes the
embedding total and is unreachable from `try_pop`. -/
def do_pop : threadsafe_queue α → Option α × threadsafe_queue α
  | ⟨[], n⟩ => (none, ⟨[], n⟩)
  | ⟨v :: rest, n⟩ => (some v, ⟨rest, n - 1⟩)

/-- Public `try_pop`: lock the head mutex; if `head_ == get_tail()` return
null, otherwise `do_pop`. -/
def try_pop (q : threadsafe_queue α) : Option α × threadsafe_queue α :=
  if q.nodes.isEmpty then (none, q) else q.do_pop

/-- Member `size`: the atomic counter. -/
def size (q : threadsafe_queue α) : Nat := q.num_elements_

/-- Push every value of `vs` in order (the producer side of the round trip). -/
def pushAll (q : threadsafe_queue α) (vs : List α) : threadsafe_queue α :=
  vs.foldl push q

/-- Call `try_pop` `n` times, collecting the returned values in order (the
consumer side of the round trip). -/
def popN : threadsafe_queue α → Nat → List (Option α) × threadsafe_queue α
  | q, 0 => ([], q)
  | q, n + 1 =>
    let r := q.try_pop
    let rest := popN r.2 n
    (r.1 :: rest.1, rest.2)

end threadsafe_queue

/-! ### Threadsafe LIFO stack (src/container/threadsafe_stack.h)

`top_` is the head of a singly linked node chain; `top_ == nullptr` iff the
stack is empty.  `top_` below lists the values from the top node downwards. -/

structure threadsafe_stack (α : Type u) : Type u where
  /-- Values from the top node downwards; `[]` corresponds to
  `top_ == nullptr`. -/
  top_ : List α
  /-- The atomic element counter `num_elements_`. -/
  num_elements_ : Nat

namespace threadsafe_stack

/-- The freshly constructed stack: null `top_`, zero counter. -/
def empty : threadsafe_stack α := ⟨[], 0⟩

/-- Internal `do_push`: splice a new node on top and bump the counter. -/
def do_push (s : threadsafe_stack α) (v : α) : threadsafe_stack α :=
  ⟨v :: s.top_, s.num_elements_ + 1⟩

/-- Public `push`: `do_push` of a freshly allocated value, then notify. -/
def push (s : threadsafe_stack α) (v : α) : threadsafe_stack α :=
  s.do_push v

/-- Internal `do_pop`: extract the top value and advance `top_`.  Only called
by the source when `top_ != nullptr`; the `[]` branch totalises it. -/
def do_pop : threadsafe_stack α → Option α × threadsafe_stack α
  | ⟨[], n⟩ => (none, ⟨[], n⟩)
  | ⟨v :: rest, n⟩ => (some v, ⟨rest, n - 1⟩)

/-- Public `try_pop`: lock the top mutex; if `top_ == nullptr` return null,
otherwise `do_pop`. -/
def try_pop (s : threadsafe_stack α) : Option α × threadsafe_stack α :=
  if s.top_.isEmpty then (none, s) else s.do_pop

/-- Member `size`: the atomic counter. -/
def size (s : threadsafe_stack α) : Nat := s.num_elements_

/-- Push every value of `vs` in order. -/
def pushAll (s : threadsafe_stack α) (vs : List α) : threadsafe_stack α :=
  vs.foldl push s

/-- Call `try_pop` `n` times, collecting the returned values in order. -/
def popN : threadsafe_stack α → Nat → List (Option α) × threadsafe_stack α
  | s, 0 => ([], s)
  | s, n + 1 =>
    let r := s.try_pop
    let rest := popN r.2 n
    (r.1 :: rest.1, rest.2)

end threadsafe_stack

/-! ### Threadsafe list traversals (src/mt/container/threadsafe_list.h)

The list is a singly linked chain after a dummy head node, each node holding a
`shared_ptr<T>` installed by `make_shared` (never null).  The hand-over-hand
lock walk visits the stored values front to back; sequentially each operation
is a function of the list of stored values, given here by structural recursion
that mirrors the traversal loop. -/

namespace threadsafe_list

/-- The `SIZE_MAX` default of the `_limit` parameters of `remove_if` and
`replace_if` (64-bit `size_t`). -/
def SIZE_MAX : Nat := 2 ^ 64 - 1

/-- Traversal of `match_any`: walk the chain, short-circuiting on the first
value that passes the predicate. -/
def match_any (p : α → Bool) : List α → Bool
  | [] => false
  | x :: xs => if p x then true else match_any p xs

/-- Member `match_none`: the negation of `match_any`. -/
def match_none (p : α → Bool) (l : List α) : Bool :=
  !match_any p l

/-- Member `push_front`: splice a new node right after the dummy head. -/
def push_front (l : List α) (v : α) : List α :=
  v :: l

/-- Traversal of `remove_if`: while the limit is nonzero and nodes remain,
unlink each value passing the predicate (staying put) and step over the rest;
returns the removal count and the remaining chain.  The limit is decremented
only on removal. -/
def remove_if (p : α → Bool) : List α → Nat → Nat × List α
  | [], _ => (0, [])
  | x :: xs, limit =>
    if limit = 0 then (0, x :: xs)
    else if p x then
      let r := remove_if p xs (limit - 1)
      (r.1 + 1, r.2)
    else
      let r := remove_if p xs limit
      (r.1, x :: r.2)

/-- Traversal of `replace_if`: while the limit is nonzero and nodes remain,
overwrite each value passing the predicate with a fresh value from the
supplier and advance; returns the replacement count and the new chain. -/
def replace_if (p : α → Bool) (supplier : Unit → α) : List α → Nat → Nat × List α
  | [], _ => (0, [])
  | x :: xs, limit =>
    if limit = 0 then (0, x :: xs)
    else if p x then
      let r := replace_if p supplier xs (limit - 1)
      (r.1 + 1, supplier () :: r.2)
    else
      let r := replace_if p supplier xs limit
      (r.1, x :: r.2)

/-- Traversal of `find_first_if`: return the (shared pointer to the) first
value passing the predicate, or null. -/
def find_first_if (p : α → Bool) : List α → Option α
  | [] => none
  | x :: xs => if p x then some x else find_first_if p xs

/-- Member `clear`: drop every node. -/
def clear (_l : List α) : List α := []

end threadsafe_list

/-! ### Threadsafe hashtable (src/container/threadsafe_hashtable.h, also
src/mt/container/threadsafe_hashtable.h)

A fixed array of `N` buckets, each a `threadsafe_list` of key/value pairs.
`std::hash<K>` is abstracted as an arbitrary function `hashK : K → Nat`;
the buckets array is modelled as a total function from the bucket index
(`Nat`, only `hashK k % N` is ever used) to the bucket's list of pairs. -/

/-- Default bucket count of the `src/mt/container` variant of
`threadsafe_hashtable` (`template<typename K, typename V, std::size_t N = 61>`). -/
def threadsafe_hashtable.N_default_mt : Nat := 61

/-- Default bucket count of the `src/src/container` variant of
`threadsafe_hashtable` (`template<typename K, typename V, std::size_t N = 47>`). -/
def threadsafe_hashtable.N_default_container : Nat := 47

/-- The key/value `pair` stored in a bucket's list.  `value_` is a
`shared_ptr<V>`, hence `Option V`; the public operations always store
`make_shared` results, i.e. `some` values. -/
structure hpair (K V : Type u) : Type u where
  key_ : K
  value_ : Option V

/-- Member `pair::match_key`, and the `match_key` function object built on it:
equality test against a fixed key. -/
def hpair.match_key [DecidableEq K] (p : hpair K V) (k : K) : Bool :=
  p.key_ = k

/-- State of a `threadsafe_hashtable<K, V, N>`: the bucket array and the atomic
element counter.  The bucket count `N` is a template argument, fixed for the
lifetime of the table. -/
structure threadsafe_hashtable (K V : Type u) : Type u where
  /-- Bucket index (`hash % N`) to the bucket's list of pairs. -/
  buckets_ : Nat → List (hpair K V)
  /-- The atomic element counter `num_elements_`. -/
  num_elements_ : Nat

namespace threadsafe_hashtable

variable {K V : Type u} [DecidableEq K]

/-- The freshly constructed table: every bucket list empty, zero counter. -/
def empty : threadsafe_hashtable K V := ⟨fun _ => [], 0⟩

/-- Member `get_bucket`: hash the key and reduce modulo the bucket count. -/
def get_bucket (hashK : K → Nat) (N : Nat) (k : K) : Nat :=
  hashK k % N

/-- Internal `do_insert`: under the bucket's writer lock, if no pair in the
bucket matches the key, push the new pair to the front and bump the counter
(returns true); otherwise return false. -/
def do_insert (hashK : K → Nat) (N : Nat) (t : threadsafe_hashtable K V)
    (k : K) (v : Option V) : Bool × threadsafe_hashtable K V :=
  let b := get_bucket hashK N k
  if threadsafe_list.match_none (hpair.match_key · k) (t.buckets_ b) then
    (true,
      ⟨Function.update t.buckets_ b
          (threadsafe_list.push_front (t.buckets_ b) ⟨k, v⟩),
        t.num_elements_ + 1⟩)
  else
    (false, t)

/-- Public `insert`: `do_insert` of a `make_shared` (non-null) value. -/
def insert (hashK : K → Nat) (N : Nat) (t : threadsafe_hashtable K V)
    (k : K) (v : V) : Bool × threadsafe_hashtable K V :=
  do_insert hashK N t k (some v)

/-- Internal `do_replace`: under the bucket's writer lock, `replace_if` every
pair matching the key with a fresh pair from `pair_supplier`; true iff at
least one was replaced. -/
def do_replace (hashK : K → Nat) (N : Nat) (t : threadsafe_hashtable K V)
    (k : K) (v : Option V) : Bool × threadsafe_hashtable K V :=
  let b := get_bucket hashK N k
  let r := threadsafe_list.replace_if (hpair.match_key · k) (fun _ => ⟨k, v⟩)
    (t.buckets_ b) threadsafe_list.SIZE_MAX
  (r.1 ≠ 0, ⟨Function.update t.buckets_ b r.2, t.num_elements_⟩)

/-- Public `replace`: `do_replace` of a `make_shared` value. -/
def replace (hashK : K → Nat) (N : Nat) (t : threadsafe_hashtable K V)
    (k : K) (v : V) : Bool × threadsafe_hashtable K V :=
  do_replace hashK N t k (some v)

/-- Internal `do_insert_or_replace`: `replace_if` under the writer lock; when
nothing matched, push the pair to the front and bump the counter.  Always
returns true. -/
def do_insert_or_replace (hashK : K → Nat) (N : Nat)
    (t : threadsafe_hashtable K V) (k : K) (v : Option V) :
    Bool × threadsafe_hashtable K V :=
  let b := get_bucket hashK N k
  let r := threadsafe_list.replace_if (hpair.match_key · k) (fun _ => ⟨k, v⟩)
    (t.buckets_ b) threadsafe_list.SIZE_MAX
  if r.1 = 0 then
    (true,
      ⟨Function.update t.buckets_ b (threadsafe_list.push_front r.2 ⟨k, v⟩),
        t.num_elements_ + 1⟩)
  else
    (true, ⟨Function.update t.buckets_ b r.2, t.num_elements_⟩)

/-- Public `insert_or_replace`. -/
def insert_or_replace (hashK : K → Nat) (N : Nat)
    (t : threadsafe_hashtable K V) (k : K) (v : V) :
    Bool × threadsafe_hashtable K V :=
  do_insert_or_replace hashK N t k (some v)

/-- Member `remove`: under the writer lock, `remove_if` every pair matching
the key; when at least one was removed, decrement the counter once and return
true. -/
def remove (hashK : K → Nat) (N : Nat) (t : threadsafe_hashtable K V)
    (k : K) : Bool × threadsafe_hashtable K V :=
  let b := get_bucket hashK N k
  let r := threadsafe_list.remove_if (hpair.match_key · k)
    (t.buckets_ b) threadsafe_list.SIZE_MAX
  if r.1 ≠ 0 then
    (true, ⟨Function.update t.buckets_ b r.2, t.num_elements_ - 1⟩)
  else
    (false, ⟨Function.update t.buckets_ b r.2, t.num_elements_⟩)

/-- Member `get`: under the reader lock, `find_first_if` by key; the found
pair's value, or null. -/
def get (hashK : K → Nat) (N : Nat) (t : threadsafe_hashtable K V)
    (k : K) : Option V :=
  match threadsafe_list.find_first_if (hpair.match_key · k)
      (t.buckets_ (get_bucket hashK N k)) with
  | some p => p.value_
  | none => none

/-- Member `get_or_insert`: optimistic `get`; if null, take the writer lock,
re-check with `find_first_if`, and only then construct the supplier's value,
push it and bump the counter. -/
def get_or_insert (hashK : K → Nat) (N : Nat) (t : threadsafe_hashtable K V)
    (k : K) (supplier : Unit → V) : Option V × threadsafe_hashtable K V :=
  match get hashK N t k with
  | some existing_value => (some existing_value, t)
  | none =>
    let b := get_bucket hashK N k
    match threadsafe_list.find_first_if (hpair.match_key · k) (t.buckets_ b) with
    | some p => (p.value_, t)
    | none =>
      let new_value := supplier ()
      (some new_value,
        ⟨Function.update t.buckets_ b
            (threadsafe_list.push_front (t.buckets_ b) ⟨k, some new_value⟩),
          t.num_elements_ + 1⟩)

/-- Member `has`: under the reader lock, `match_any` by key. -/
def has (hashK : K → Nat) (N : Nat) (t : threadsafe_hashtable K V)
    (k : K) : Bool :=
  threadsafe_list.match_any (hpair.match_key · k)
    (t.buckets_ (get_bucket hashK N k))

/-- Member `clear`: lock every bucket in index order, clear each list, zero
the counter. -/
def clear (_t : threadsafe_hashtable K V) : threadsafe_hashtable K V :=
  ⟨fun _ => [], 0⟩

/-- Member `size`: the atomic counter. -/
def size (t : threadsafe_hashtable K V) : Nat := t.num_elements_

/-- One mutating hashtable operation, for reasoning about operation
sequences.  `get_or_insert` carries the value its supplier would construct. -/
inductive Op (K V : Type u) : Type u where
  | insert (k : K) (v : V)
  | replace (k : K) (v : V)
  | insert_or_replace (k : K) (v : V)
  | remove (k : K)
  | get_or_insert (k : K) (v : V)
  | clear

/-- Apply one operation (dropping the returned flag/value). -/
def applyOp (hashK : K → Nat) (N : Nat) (t : threadsafe_hashtable K V) :
    Op K V → threadsafe_hashtable K V
  | .insert k v => (insert hashK N t k v).2
  | .replace k v => (replace hashK N t k v).2
  | .insert_or_replace k v => (insert_or_replace hashK N t k v).2
  | .remove k => (remove hashK N t k).2
  | .get_or_insert k v => (get_or_insert hashK N t k (fun _ => v)).2
  | .clear => clear t

/-- Apply a sequence of operations in order. -/
def applyOps (hashK : K → Nat) (N : Nat) (t : threadsafe_hashtable K V)
    (ops : List (Op K V)) : threadsafe_hashtable K V :=
  ops.foldl (applyOp hashK N) t

/-- Total number of pairs stored across the `N` buckets. -/
def totalPairs (t : threadsafe_hashtable K V) (N : Nat) : Nat :=
  ((List.range N).map (fun j => (t.buckets_ j).length)).sum

/-- Number of pairs matching key `k` across the `N` buckets. -/
def keyCount (t : threadsafe_hashtable K V) (N : Nat) (k : K) : Nat :=
  ((List.range N).map
    (fun j => (t.buckets_ j).countP (hpair.match_key · k))).sum

/-- The hashtable's documented structural invariants, phrased over the bucket
array: every pair sits in its key's bucket, no bucket holds a key twice,
every stored value is non-null, unused bucket indices are empty, and the
counter agrees with the total pair count. -/
def WF (hashK : K → Nat) (N : Nat) (t : threadsafe_hashtable K V) : Prop :=
  (∀ j, ∀ p ∈ t.buckets_ j, get_bucket hashK N p.key_ = j) ∧
  (∀ j, ((t.buckets_ j).map hpair.key_).Nodup) ∧
  (∀ j, ∀ p ∈ t.buckets_ j, p.value_.isSome) ∧
  (∀ j, N ≤ j → t.buckets_ j = []) ∧
  t.num_elements_ = totalPairs t N

end threadsafe_hashtable

/-! ### Type-erased task (src/thread_pool/task.h) -/

/-- The `task` object: a `unique_ptr` (`function_ptr_`) to a heap-allocated
type-erased wrapper owning the callable.  The pointer is null (`none`) exactly
when the task has been moved from; the wrapped callable is modelled as
`Unit → V`. -/
structure task (V : Type u) : Type u where
  function_ptr_ : Option (Unit → V)

namespace task

/-- The templated constructor: `function_ptr_ = make_unique<templated_wrapper>`
— never null. -/
def of_callable (f : Unit → V) : task V :=
  ⟨some f⟩

/-- Move constructor `task(task&&)`: `function_ptr_ = std::move(other)`.
Returns the newly constructed task paired with the moved-from source, whose
`unique_ptr` is left null by the `std::unique_ptr` move. -/
def move_construct (t : task V) : task V × task V :=
  (⟨t.function_ptr_⟩, ⟨none⟩)

/-- Move assignment `operator=(task&&)`: the same pointer transfer; returns
the assigned-to task paired with the moved-from source. -/
def move_assign (_dst : task V) (src : task V) : task V × task V :=
  (⟨src.function_ptr_⟩, ⟨none⟩)

/-- Member `operator()`: `function_ptr_->operator()()`.  When `function_ptr_`
is null this dereferences a null pointer; in the total embedding that is the
`none` branch, reached exactly on a null pointer. -/
def invoke (t : task V) : Option V :=
  t.function_ptr_.map fun f => f ()

end task

/-! ### Work-stealing thread pool (src/thread_pool/thread_pool.h / .cpp)

All tasks of one pool share one result type `V` in the model (the C++ pool
erases the types; nothing below depends on mixing them).  OS thread ids are
`Nat`. -/

/-- The result channel created inside `submit` (the `std::promise` /
`std::future` pair of the `std::packaged_task`).  Exactly one of: not yet
set; set to a value; abandoned because the `packaged_task` was destroyed
unset (broken promise). -/
inductive HandleState (V : Type u) : Type u where
  | pending
  | ready (v : V)
  | broken

/-- Error raised by a `std::future` whose promise was dropped unset
(`std::future_error` with code `broken_promise`) — the pool-shutdown error. -/
inductive future_error : Type where
  | broken_promise

/-- Consume a completion handle (`std::future::get`): a ready handle yields
its value, a broken one raises the shutdown error, a pending one blocks
(`none` in the sequential model). -/
def HandleState.take : HandleState V → Option (Except future_error V)
  | .pending => none
  | .ready v => some (.ok v)
  | .broken => some (.error .broken_promise)

/-- The semantic content of one queued `task` inside the pool: the bound
zero-argument callable of its inner `std::packaged_task` and the index of the
completion handle that callable's result will be stored into. -/
structure pool_task (V : Type u) : Type u where
  callable : Unit → V
  handle : Nat

/-- State of a `thread_pool`, together with the handle instrumentation needed
to speak about results: `handles_` is the store of channels created by
`submit` in creation order, `submitted_` records the callable bound to each
handle, and `run_counts_` counts how many times each handle's callable has
been invoked. -/
structure thread_pool (V : Type u) : Type u where
  num_threads_ : Nat
  end_flag_ : Bool
  worker_index_lookup_ : List (Nat × Nat)
  global_task_queue_ : threadsafe_queue (pool_task V)
  local_task_queues_ : List (threadsafe_stack (pool_task V))
  handles_ : List (HandleState V)
  submitted_ : List (Unit → V)
  run_counts_ : List Nat

namespace thread_pool

/-- Modelled from the spec: `threadsafe_hashtable::at`, the worker-identity
lookup called as `worker_index_lookup_.at(std::this_thread::get_id())` by
`submit` and `run_pending_task`.  Its definition is not in the source
snapshot (only its callers are); per the spec it decides, given the current
OS thread id, whether it is one of the pool's workers and, if so, returns a
pointer to its index — null otherwise. -/
def lookup_at (m : List (Nat × Nat)) (tid : Nat) : Option Nat :=
  (m.find? fun e => e.1 = tid).map (·.2)

/-- Constructor: `num_threads_ = max(requested, 1)`; for each `i` a fresh
empty local stack is created, a worker spawned, and its OS thread id
(`tids i`) inserted into `worker_index_lookup_` with value `i`; the end flag
starts false. -/
def construct (V : Type u) (requested : Nat) (tids : Nat → Nat) :
    thread_pool V :=
  let n := max requested 1
  { num_threads_ := n
    end_flag_ := false
    worker_index_lookup_ := (List.range n).map fun i => (tids i, i)
    global_task_queue_ := threadsafe_queue.empty
    local_task_queues_ := List.replicate n threadsafe_stack.empty
    handles_ := []
    submitted_ := []
    run_counts_ := [] }

/-- Member `submit`: build a `packaged_task` around the bound callable (a
fresh pending handle plus the recorded callable), then push the task onto the
calling worker's own local stack when `worker_index_lookup_.at` knows the
caller, otherwise onto the global queue; return the `std::future` (the new
handle's index). -/
def submit (p : thread_pool V) (tid : Nat) (f : Unit → V) :
    Nat × thread_pool V :=
  let h := p.handles_.length
  let t : pool_task V := ⟨f, h⟩
  let p1 : thread_pool V := { p with
    handles_ := p.handles_ ++ [HandleState.pending]
    submitted_ := p.submitted_ ++ [f]
    run_counts_ := p.run_counts_ ++ [0] }
  match lookup_at p1.worker_index_lookup_ tid with
  | some i =>
    match p1.local_task_queues_.get? i with
    | some s =>
      (h, { p1 with
        local_task_queues_ := p1.local_task_queues_.set i (s.push t) })
    | none => (h, p1)
  | none =>
    (h, { p1 with global_task_queue_ := p1.global_task_queue_.push t })

/-- Member `get_local_task`: `local_task_queues_[index]->try_pop()`.  A failed
`try_pop` returns the stack unchanged, so the pool is returned as-is then;
an out-of-range index (impossible in a constructed pool) also yields null. -/
def get_local_task (p : thread_pool V) (i : Nat) :
    Option (pool_task V) × thread_pool V :=
  match p.local_task_queues_.get? i with
  | none => (none, p)
  | some s =>
    let r := s.try_pop
    match r.1 with
    | none => (none, p)
    | some t =>
      (some t,
        { p with local_task_queues_ := p.local_task_queues_.set i r.2 })

/-- Member `get_global_task`: `global_task_queue_.try_pop()`. -/
def get_global_task (p : thread_pool V) :
    Option (pool_task V) × thread_pool V :=
  let r := p.global_task_queue_.try_pop
  match r.1 with
  | none => (none, p)
  | some t => (some t, { p with global_task_queue_ := r.2 })

/-- The loop body of `steal_task`: try each victim index in turn, returning
the first successfully popped task. -/
def steal_from (p : thread_pool V) :
    List Nat → Option (pool_task V) × thread_pool V
  | [] => (none, p)
  | j :: rest =>
    let r := get_local_task p j
    match r.1 with
    | some t => (some t, r.2)
    | none => steal_from r.2 rest

/-- Member `steal_task`: for `i = 1 … num_threads_ - 1`, try
`local_task_queues_[(index + i) % num_threads_]`; null if every victim is
empty.  (The caller's own index is skipped by starting at `i = 1`.) -/
def steal_task (p : thread_pool V) (index : Nat) :
    Option (pool_task V) × thread_pool V :=
  steal_from p ((List.range' 1 (p.num_threads_ - 1)).map
    fun i => (index + i) % p.num_threads_)

/-- Run one popped task: `task::operator()` invokes the inner
`std::packaged_task` exactly once, which calls the bound callable and stores
the result into the promise, making the future ready.  The handle's
invocation counter is incremented. -/
def run_task (p : thread_pool V) (t : pool_task V) : thread_pool V :=
  { p with
    handles_ := p.handles_.set t.handle (HandleState.ready (t.callable ()))
    run_counts_ := p.run_counts_.set t.handle
      (p.run_counts_.getD t.handle 0 + 1) }

/-- Member `run_local_task`. -/
def run_local_task (p : thread_pool V) (i : Nat) : Bool × thread_pool V :=
  let r := get_local_task p i
  match r.1 with
  | some t => (true, run_task r.2 t)
  | none => (false, r.2)

/-- Member `run_global_task`. -/
def run_global_task (p : thread_pool V) : Bool × thread_pool V :=
  let r := get_global_task p
  match r.1 with
  | some t => (true, run_task r.2 t)
  | none => (false, r.2)

/-- Member `run_stolen_task`. -/
def run_stolen_task (p : thread_pool V) (i : Nat) : Bool × thread_pool V :=
  let r := steal_task p i
  match r.1 with
  | some t => (true, run_task r.2 t)
  | none => (false, r.2)

/-- One iteration of the worker main loop body (worker `i`):
`run_local_task(i) || run_global_task() || run_stolen_task(i)`. -/
def worker_iteration (p : thread_pool V) (i : Nat) : Bool × thread_pool V :=
  let r1 := p.run_local_task i
  if r1.1 then r1
  else
    let r2 := r1.2.run_global_task
    if r2.1 then r2 else r2.2.run_stolen_task i

/-- Member `run_pending_task`: when `worker_index_lookup_.at` knows the
calling thread, attempt `run_local_task(i) || run_global_task() ||
run_stolen_task(i)`; otherwise attempt
`run_global_task() || run_stolen_task(0)`. -/
def run_pending_task (p : thread_pool V) (tid : Nat) :
    Bool × thread_pool V :=
  match lookup_at p.worker_index_lookup_ tid with
  | some i =>
    let r1 := p.run_local_task i
    if r1.1 then r1
    else
      let r2 := r1.2.run_global_task
      if r2.1 then r2 else r2.2.run_stolen_task i
  | none =>
    let r2 := p.run_global_task
    if r2.1 then r2 else r2.2.run_stolen_task 0

/-- Concatenation of all values held by a list of stacks, top first. -/
def stacksTasks : List (threadsafe_stack (pool_task V)) → List (pool_task V)
  | [] => []
  | s :: rest => s.top_ ++ stacksTasks rest

/-- Every task currently queued in the pool: the global queue head-first,
then each local stack top-first. -/
def allTasks (p : thread_pool V) : List (pool_task V) :=
  p.global_task_queue_.nodes ++ stacksTasks p.local_task_queues_

/-- Destruction of one queued task: its `packaged_task` is destroyed, and a
promise still pending becomes broken. -/
def drop_handle (hs : List (HandleState V)) (h : Nat) :
    List (HandleState V) :=
  match hs.get? h with
  | some HandleState.pending => hs.set h HandleState.broken
  | _ => hs

/-- Destructor: set the end flag, join every worker thread (no further
sequential content), then destroy the member containers — every still-queued
task is dropped without being run and its pending handle becomes broken. -/
def destruct (p : thread_pool V) : thread_pool V :=
  { p with
    end_flag_ := true
    global_task_queue_ := threadsafe_queue.empty
    local_task_queues_ := []
    handles_ := p.allTasks.foldl (fun hs t => drop_handle hs t.handle)
      p.handles_ }

/-- One observable pool action in the sequential interleaving model: a
submission from thread `tid`, a cooperative `run_pending_task` call from
thread `tid`, or one worker-loop iteration of worker `i`. -/
inductive pool_event (V : Type u) : Type u where
  | submit (tid : Nat) (f : Unit → V)
  | run_pending (tid : Nat)
  | worker_step (i : Nat)

/-- Apply one pool event. -/
def apply_event (p : thread_pool V) : pool_event V → thread_pool V
  | .submit tid f => (p.submit tid f).2
  | .run_pending tid => (p.run_pending_task tid).2
  | .worker_step i => (p.worker_iteration i).2

/-- Apply a sequence of pool events in order. -/
def run_events (p : thread_pool V) (evs : List (pool_event V)) :
    thread_pool V :=
  evs.foldl apply_event p

/-- Relation between a pool and the result of one try-pop step: the handle
stores are untouched, and either nothing was popped and the pool is
unchanged, or the popped task is removed from the queued tasks. -/
def PopsTo (p q : thread_pool V) : Option (pool_task V) → Prop
  | none => q = p
  | some t =>
    q.handles_ = p.handles_ ∧ q.submitted_ = p.submitted_ ∧
    q.run_counts_ = p.run_counts_ ∧
    ∃ l₁ l₂, p.allTasks = l₁ ++ t :: l₂ ∧ q.allTasks = l₁ ++ l₂

/-- Execution invariant tying queued tasks to their handles: the three handle
stores have equal length; no handle is queued twice; every queued task's
handle is pending and unrun and records the task's callable; and a ready
handle holds exactly one invocation's result of its recorded callable. -/
def PoolInv (p : thread_pool V) : Prop :=
  p.submitted_.length = p.handles_.length ∧
  p.run_counts_.length = p.handles_.length ∧
  (p.allTasks.map pool_task.handle).Nodup ∧
  (∀ t ∈ p.allTasks,
    p.handles_.get? t.handle = some HandleState.pending ∧
    p.submitted_.get? t.handle = some t.callable ∧
    p.run_counts_.get? t.handle = some 0) ∧
  (∀ h v, p.handles_.get? h = some (HandleState.ready v) →
    p.run_counts_.get? h = some 1 ∧
    ∃ f, p.submitted_.get? h = some f ∧ v = f ())

end thread_pool

/-! ## Theorems -/

/-! ### Queue and stack round trips -/

namespace threadsafe_queue

theorem pushAll_nodes (vs : List α) :
    ∀ q : threadsafe_queue α, (q.pushAll vs).nodes = q.nodes ++ vs := by
  induction vs with
  | nil => intro q; simp [pushAll]
  | cons v vs ih =>
    intro q
    simp only [pushAll, List.foldl_cons] at *
    rw [ih]
    simp [push, do_push]

theorem popN_of_nodes (vs : List α) :
    ∀ q : threadsafe_queue α, q.nodes = vs →
      (q.popN vs.length).1 = vs.map some := by
  induction vs with
  | nil => intro q _; simp [popN]
  | cons v vs ih =>
    intro q hq
    obtain ⟨nodes, n⟩ := q
    simp only at hq
    subst hq
    simp only [List.length_cons, popN, try_pop, List.isEmpty_cons, do_pop,
      List.map_cons, List.cons.injEq]
    exact ⟨rfl, ih _ rfl⟩

end threadsafe_queue

namespace threadsafe_stack

theorem pushAll_top (vs : List α) :
    ∀ s : threadsafe_stack α, (s.pushAll vs).top_ = vs.reverse ++ s.top_ := by
  induction vs with
  | nil => intro s; simp [pushAll]
  | cons v vs ih =>
    intro s
    simp only [pushAll, List.foldl_cons] at *
    rw [ih]
    simp [push, do_push]

theorem popN_of_top (vs : List α) :
    ∀ s : threadsafe_stack α, s.top_ = vs →
      (s.popN vs.length).1 = vs.map some := by
  induction vs with
  | nil => intro s _; simp [popN]
  | cons v vs ih =>
    intro s hs
    obtain ⟨top, n⟩ := s
    simp only at hs
    subst hs
    simp only [List.length_cons, popN, try_pop, List.isEmpty_cons, do_pop,
      List.map_cons, List.cons.injEq]
    exact ⟨rfl, ih _ rfl⟩

end threadsafe_stack

/-- C7: pushing `n` values into a fresh `threadsafe_queue` and then calling
`try_pop` `n` times (sequential model, no interleaving) yields exactly the
pushed sequence in order, and `try_pop` on an empty queue
(`head_ == get_tail()`) returns null. -/
theorem C7_queue_fifo_roundtrip (α : Type u) (vs : List α) :
    ((threadsafe_queue.empty.pushAll vs).popN vs.length).1 = vs.map some ∧
      (threadsafe_queue.empty (α := α)).try_pop =
        (none, threadsafe_queue.empty) := by
  constructor
  · apply threadsafe_queue.popN_of_nodes
    rw [threadsafe_queue.pushAll_nodes]
    rfl
  · rfl

/-- C8: pushing `n` values onto a fresh `threadsafe_stack` and then calling
`try_pop` `n` times with no concurrent modification yields the reverse of the
pushed sequence, and `try_pop` on an empty stack (`top_ == nullptr`) returns
null. -/
theorem C8_stack_lifo_roundtrip (α : Type u) (vs : List α) :
    ((threadsafe_stack.empty.pushAll vs).popN vs.length).1 =
        vs.reverse.map some ∧
      (threadsafe_stack.empty (α := α)).try_pop =
        (none, threadsafe_stack.empty) := by
  constructor
  · have h := threadsafe_stack.popN_of_top vs.reverse
      (threadsafe_stack.empty.pushAll vs)
      (by rw [threadsafe_stack.pushAll_top]; simp [threadsafe_stack.empty])
    simpa using h
  · rfl

/-! ### Threadsafe list traversal lemmas -/

namespace threadsafe_list

theorem SIZE_MAX_pos : 1 ≤ SIZE_MAX := by
  norm_num [SIZE_MAX]

theorem match_any_eq_any (p : α → Bool) (l : List α) :
    match_any p l = l.any p := by
  induction l with
  | nil => rfl
  | cons x xs ih => by_cases h : p x <;> simp [match_any, h, ih]

theorem find_first_if_eq_find (p : α → Bool) (l : List α) :
    find_first_if p l = l.find? p := by
  induction l with
  | nil => rfl
  | cons x xs ih => by_cases h : p x <;> simp [find_first_if, h, ih, List.find?_cons]

theorem map_ite_of_countP_zero {p : α → Bool} {l : List α} (s : α)
    (h : l.countP p = 0) :
    (l.map fun x => if p x then s else x) = l := by
  have hall := List.countP_eq_zero.mp h
  calc (l.map fun x => if p x then s else x) = l.map id := by
        apply List.map_congr_left
        intro a ha
        simp [hall a ha]
    _ = l := List.map_id l

theorem replace_if_spec (p : α → Bool) (sup : Unit → α) :
    ∀ (l : List α) (lim : Nat), l.countP p ≤ lim →
      replace_if p sup l lim =
        (l.countP p, l.map fun x => if p x then sup () else x) := by
  intro l
  induction l with
  | nil => intro lim _; simp [replace_if]
  | cons x xs ih =>
    intro lim hlim
    by_cases hx : p x
    · have hcount : (x :: xs).countP p = xs.countP p + 1 := by
        simp [List.countP_cons, hx]
      have hlim0 : lim ≠ 0 := by omega
      have hxs : xs.countP p ≤ lim - 1 := by omega
      simp only [replace_if, hlim0, if_false, hx, if_true, ih (lim - 1) hxs,
        hcount, List.map_cons]
    · have hcount : (x :: xs).countP p = xs.countP p := by
        simp [List.countP_cons, hx]
      rcases Nat.eq_zero_or_pos lim with hlim0 | hlimpos
      · subst hlim0
        have hz : (x :: xs).countP p = 0 := Nat.le_zero.mp hlim
        simp [replace_if, hz, map_ite_of_countP_zero (sup ()) hz]
      · have hlim0 : lim ≠ 0 := by omega
        simp only [replace_if, hlim0, if_false, hx, Bool.false_eq_true,
          ih lim (by omega), hcount, List.map_cons]

theorem remove_if_spec (p : α → Bool) :
    ∀ (l : List α) (lim : Nat), l.countP p ≤ lim →
      remove_if p l lim = (l.countP p, l.filter fun x => !p x) := by
  intro l
  induction l with
  | nil => intro lim _; simp [remove_if]
  | cons x xs ih =>
    intro lim hlim
    by_cases hx : p x
    · have hcount : (x :: xs).countP p = xs.countP p + 1 := by
        simp [List.countP_cons, hx]
      have hlim0 : lim ≠ 0 := by omega
      simp only [remove_if, hlim0, if_false, hx, if_true,
        ih (lim - 1) (by omega), hcount, List.filter_cons, Bool.not_true]
      simp
    · have hcount : (x :: xs).countP p = xs.countP p := by
        simp [List.countP_cons, hx]
      rcases Nat.eq_zero_or_pos lim with hlim0 | hlimpos
      · subst hlim0
        have hz : (x :: xs).countP p = 0 := Nat.le_zero.mp hlim
        have hall := List.countP_eq_zero.mp hz
        have : (x :: xs).filter (fun x => !p x) = x :: xs := by
          apply List.filter_eq_self.mpr
          intro a ha
          simp [hall a ha]
        simp [remove_if, hz, this]
      · have hlim0 : lim ≠ 0 := by omega
        simp only [remove_if, hlim0, if_false, hx, Bool.false_eq_true,
          ih lim (by omega), hcount, List.filter_cons, Bool.not_false]
        simp [hx]

end threadsafe_list

/-! ### Hashtable invariants -/

namespace threadsafe_hashtable

variable {K V : Type u} [DecidableEq K]

theorem sum_lengths_update (f : Nat → List β) (l' : List β) :
    ∀ (N j0 : Nat), j0 < N →
      ((List.range N).map fun j => (Function.update f j0 l' j).length).sum
          + (f j0).length
        = ((List.range N).map fun j => (f j).length).sum + l'.length := by
  intro N
  induction N with
  | zero => intro j0 hj; exact absurd hj (Nat.not_lt_zero _)
  | succ N ih =>
    intro j0 hj
    rw [List.range_succ]
    simp only [List.map_append, List.sum_append, List.map_cons, List.map_nil,
      List.sum_cons, List.sum_nil]
    by_cases hcase : j0 = N
    · have hcongr : (List.range N).map
          (fun j => (Function.update f j0 l' j).length) =
          (List.range N).map (fun j => (f j).length) := by
        apply List.map_congr_left
        intro j hjm
        rw [Function.update_noteq (by simp at hjm; omega)]
      have hupd : Function.update f j0 l' N = l' := by
        rw [hcase]; exact Function.update_same _ _ _
      rw [hcongr, hupd, hcase]
      omega
    · have hupd : Function.update f j0 l' N = f N :=
        Function.update_noteq (by omega) _ _
      have := ih j0 (by omega)
      rw [hupd]
      omega

theorem sum_le_single (g : Nat → Nat) (j0 : Nat)
    (h : ∀ j, j ≠ j0 → g j = 0) :
    ∀ N, ((List.range N).map g).sum ≤ g j0 := by
  intro N
  induction N with
  | zero => simp
  | succ N ih =>
    rw [List.range_succ]
    simp only [List.map_append, List.sum_append, List.map_cons, List.map_nil,
      List.sum_cons, List.sum_nil]
    by_cases hcase : N = j0
    · have hzero : ((List.range N).map g).sum = 0 := by
        apply List.sum_eq_zero
        intro x hx
        obtain ⟨j, hj, rfl⟩ := List.mem_map.mp hx
        exact h j (by simp at hj; omega)
      rw [hzero, hcase]
      omega
    · have := h N hcase
      omega

theorem length_filter_not_add_countP (p : α → Bool) (l : List α) :
    (l.filter fun x => !p x).length + l.countP p = l.length := by
  induction l with
  | nil => simp
  | cons x xs ih =>
    by_cases hx : p x <;> simp [List.filter_cons, List.countP_cons, hx] <;>
      omega

theorem countP_key_zero_iff (l : List (hpair K V)) (k : K) :
    l.countP (hpair.match_key · k) = 0 ↔ k ∉ l.map hpair.key_ := by
  rw [List.countP_eq_zero]
  constructor
  · intro h hmem
    obtain ⟨p, hp, hpk⟩ := List.mem_map.mp hmem
    exact h p hp (by simp [hpair.match_key, hpk])
  · intro h p hp hpk
    exact h (List.mem_map.mpr ⟨p, hp, by simpa [hpair.match_key] using hpk⟩)

theorem countP_match_key_le_one {l : List (hpair K V)}
    (h : (l.map hpair.key_).Nodup) (k : K) :
    l.countP (hpair.match_key · k) ≤ 1 := by
  induction l with
  | nil => simp
  | cons p l ih =>
    simp only [List.map_cons, List.nodup_cons] at h
    by_cases hp : p.match_key k
    · have hk : p.key_ = k := by simpa [hpair.match_key] using hp
      have hz : l.countP (hpair.match_key · k) = 0 :=
        (countP_key_zero_iff l k).mpr (hk ▸ h.1)
      simp [List.countP_cons, hp, hz]
    · have hle := ih h.2
      have hcount : (p :: l).countP (hpair.match_key · k) =
          l.countP (hpair.match_key · k) := by
        simp [List.countP_cons, hp]
      omega

theorem match_any_key_iff (l : List (hpair K V)) (k : K) :
    threadsafe_list.match_any (hpair.match_key · k) l = true ↔
      k ∈ l.map hpair.key_ := by
  rw [threadsafe_list.match_any_eq_any, List.any_eq_true]
  constructor
  · intro ⟨p, hp, hpk⟩
    exact List.mem_map.mpr ⟨p, hp, by simpa [hpair.match_key] using hpk⟩
  · intro h
    obtain ⟨p, hp, hpk⟩ := List.mem_map.mp h
    exact ⟨p, hp, by simp [hpair.match_key, hpk]⟩

theorem WF_empty (hashK : K → Nat) (N : Nat) :
    WF hashK N (empty (K := K) (V := V)) := by
  refine ⟨?_, ?_, ?_, ?_, ?_⟩ <;> dsimp only [empty, WF, totalPairs]
  · intro j p hp; simp at hp
  · intro j; simp
  · intro j p hp; simp at hp
  · intro j _; rfl
  · symm
    apply List.sum_eq_zero
    intro x hx
    obtain ⟨j, _, rfl⟩ := List.mem_map.mp hx
    rfl

theorem WF_update_cons (hashK : K → Nat) (N : Nat) (hN : 0 < N)
    (t : threadsafe_hashtable K V) (k : K) (v : Option V) (hv : v.isSome)
    (h : WF hashK N t)
    (hknotin : k ∉ (t.buckets_ (get_bucket hashK N k)).map hpair.key_) :
    WF hashK N
      ⟨Function.update t.buckets_ (get_bucket hashK N k)
          (threadsafe_list.push_front
            (t.buckets_ (get_bucket hashK N k)) ⟨k, v⟩),
        t.num_elements_ + 1⟩ := by
  obtain ⟨h1, h2, h3, h4, h5⟩ := h
  have hbN : get_bucket hashK N k < N := Nat.mod_lt _ hN
  refine ⟨?_, ?_, ?_, ?_, ?_⟩ <;>
    dsimp only [totalPairs, threadsafe_list.push_front]
  · intro j p hp
    by_cases hj : j = get_bucket hashK N k
    · subst hj
      rw [Function.update_same] at hp
      rcases List.mem_cons.mp hp with rfl | hp2
      · rfl
      · exact h1 _ p hp2
    · rw [Function.update_noteq hj] at hp
      exact h1 j p hp
  · intro j
    by_cases hj : j = get_bucket hashK N k
    · subst hj
      rw [Function.update_same]
      simp only [List.map_cons, List.nodup_cons]
      exact ⟨hknotin, h2 _⟩
    · rw [Function.update_noteq hj]
      exact h2 j
  · intro j p hp
    by_cases hj : j = get_bucket hashK N k
    · subst hj
      rw [Function.update_same] at hp
      rcases List.mem_cons.mp hp with rfl | hp2
      · exact hv
      · exact h3 _ p hp2
    · rw [Function.update_noteq hj] at hp
      exact h3 j p hp
  · intro j hjN
    rw [Function.update_noteq (by omega)]
    exact h4 j hjN
  · have hsum := sum_lengths_update t.buckets_
      ((⟨k, v⟩ : hpair K V) :: t.buckets_ (get_bucket hashK N k))
      N (get_bucket hashK N k) hbN
    simp only [totalPairs] at h5
    simp only [List.length_cons] at hsum
    omega

theorem WF_update_map_replace (hashK : K → Nat) (N : Nat) (hN : 0 < N)
    (t : threadsafe_hashtable K V) (k : K) (v : Option V) (hv : v.isSome)
    (h : WF hashK N t) :
    WF hashK N
      ⟨Function.update t.buckets_ (get_bucket hashK N k)
          ((t.buckets_ (get_bucket hashK N k)).map
            fun x => if x.match_key k then ⟨k, v⟩ else x),
        t.num_elements_⟩ := by
  obtain ⟨h1, h2, h3, h4, h5⟩ := h
  have hbN : get_bucket hashK N k < N := Nat.mod_lt _ hN
  have hkeys : ∀ l : List (hpair K V),
      ((l.map fun x => if x.match_key k then (⟨k, v⟩ : hpair K V) else x).map
        hpair.key_) = l.map hpair.key_ := by
    intro l
    rw [List.map_map]
    apply List.map_congr_left
    intro x _
    by_cases hx : x.match_key k
    · have hxkey : x.key_ = k := by simpa [hpair.match_key] using hx
      simp [Function.comp, hx, hxkey]
    · simp [Function.comp, hx]
  refine ⟨?_, ?_, ?_, ?_, ?_⟩ <;> dsimp only [totalPairs]
  · intro j p hp
    by_cases hj : j = get_bucket hashK N k
    · subst hj
      rw [Function.update_same] at hp
      obtain ⟨x, hx, rfl⟩ := List.mem_map.mp hp
      by_cases hxk : x.match_key k
      · simp [hxk]
      · simp only [hxk, if_false]
        exact h1 _ x hx
    · rw [Function.update_noteq hj] at hp
      exact h1 j p hp
  · intro j
    by_cases hj : j = get_bucket hashK N k
    · subst hj
      rw [Function.update_same, hkeys]
      exact h2 _
    · rw [Function.update_noteq hj]
      exact h2 j
  · intro j p hp
    by_cases hj : j = get_bucket hashK N k
    · subst hj
      rw [Function.update_same] at hp
      obtain ⟨x, hx, rfl⟩ := List.mem_map.mp hp
      by_cases hxk : x.match_key k
      · simp only [hxk, if_true]
        exact hv
      · simp only [hxk, if_false]
        exact h3 _ x hx
    · rw [Function.update_noteq hj] at hp
      exact h3 j p hp
  · intro j hjN
    rw [Function.update_noteq (by omega)]
    exact h4 j hjN
  · have := sum_lengths_update t.buckets_
      ((t.buckets_ (get_bucket hashK N k)).map
        fun x => if x.match_key k then (⟨k, v⟩ : hpair K V) else x)
      N (get_bucket hashK N k) hbN
    simp only [totalPairs] at h5
    simp only [List.length_map] at this
    omega

theorem WF_update_filter (hashK : K → Nat) (N : Nat) (hN : 0 < N)
    (t : threadsafe_hashtable K V) (k : K) (h : WF hashK N t)
    (hone : (t.buckets_ (get_bucket hashK N k)).countP
      (hpair.match_key · k) = 1) :
    WF hashK N
      ⟨Function.update t.buckets_ (get_bucket hashK N k)
          ((t.buckets_ (get_bucket hashK N k)).filter
            fun x => !x.match_key k),
        t.num_elements_ - 1⟩ := by
  obtain ⟨h1, h2, h3, h4, h5⟩ := h
  have hbN : get_bucket hashK N k < N := Nat.mod_lt _ hN
  refine ⟨?_, ?_, ?_, ?_, ?_⟩ <;> dsimp only [totalPairs]
  · intro j p hp
    by_cases hj : j = get_bucket hashK N k
    · subst hj
      rw [Function.update_same] at hp
      exact h1 _ p (List.mem_of_mem_filter hp)
    · rw [Function.update_noteq hj] at hp
      exact h1 j p hp
  · intro j
    by_cases hj : j = get_bucket hashK N k
    · subst hj
      rw [Function.update_same]
      exact List.Nodup.sublist
        (List.Sublist.map hpair.key_ (List.filter_sublist _)) (h2 _)
    · rw [Function.update_noteq hj]
      exact h2 j
  · intro j p hp
    by_cases hj : j = get_bucket hashK N k
    · subst hj
      rw [Function.update_same] at hp
      exact h3 _ p (List.mem_of_mem_filter hp)
    · rw [Function.update_noteq hj] at hp
      exact h3 j p hp
  · intro j hjN
    rw [Function.update_noteq (by omega)]
    exact h4 j hjN
  · have hsum := sum_lengths_update t.buckets_
      ((t.buckets_ (get_bucket hashK N k)).filter fun x => !x.match_key k)
      N (get_bucket hashK N k) hbN
    have hsplit := length_filter_not_add_countP (hpair.match_key · k)
      (t.buckets_ (get_bucket hashK N k))
    simp only [totalPairs] at h5
    omega

theorem WF_insert (hashK : K → Nat) (N : Nat) (hN : 0 < N)
    (t : threadsafe_hashtable K V) (k : K) (v : V) (h : WF hashK N t) :
    WF hashK N (insert hashK N t k v).2 := by
  unfold insert do_insert
  dsimp only
  by_cases hm : threadsafe_list.match_none (hpair.match_key · k)
      (t.buckets_ (get_bucket hashK N k))
  · rw [if_pos hm]
    refine WF_update_cons hashK N hN t k (some v) rfl h ?_
    intro hmem
    have := (match_any_key_iff _ k).mpr hmem
    simp [threadsafe_list.match_none, this] at hm
  · rw [if_neg hm]
    exact h

theorem WF_replace (hashK : K → Nat) (N : Nat) (hN : 0 < N)
    (t : threadsafe_hashtable K V) (k : K) (v : V) (h : WF hashK N t) :
    WF hashK N (replace hashK N t k v).2 := by
  unfold replace do_replace
  dsimp only
  have hcount := countP_match_key_le_one (h.2.1 (get_bucket hashK N k)) k
  have hlim : (t.buckets_ (get_bucket hashK N k)).countP
      (hpair.match_key · k) ≤ threadsafe_list.SIZE_MAX :=
    le_trans hcount threadsafe_list.SIZE_MAX_pos
  rw [threadsafe_list.replace_if_spec _ _ _ _ hlim]
  dsimp only
  exact WF_update_map_replace hashK N hN t k (some v) rfl h

theorem WF_insert_or_replace (hashK : K → Nat) (N : Nat) (hN : 0 < N)
    (t : threadsafe_hashtable K V) (k : K) (v : V) (h : WF hashK N t) :
    WF hashK N (insert_or_replace hashK N t k v).2 := by
  unfold insert_or_replace do_insert_or_replace
  dsimp only
  have hcount := countP_match_key_le_one (h.2.1 (get_bucket hashK N k)) k
  have hlim : (t.buckets_ (get_bucket hashK N k)).countP
      (hpair.match_key · k) ≤ threadsafe_list.SIZE_MAX :=
    le_trans hcount threadsafe_list.SIZE_MAX_pos
  rw [threadsafe_list.replace_if_spec _ _ _ _ hlim]
  dsimp only
  by_cases hz : (t.buckets_ (get_bucket hashK N k)).countP
      (hpair.match_key · k) = 0
  · rw [if_pos hz,
      threadsafe_list.map_ite_of_countP_zero (⟨k, some v⟩ : hpair K V) hz]
    exact WF_update_cons hashK N hN t k (some v) rfl h
      ((countP_key_zero_iff _ k).mp hz)
  · rw [if_neg hz]
    exact WF_update_map_replace hashK N hN t k (some v) rfl h

theorem WF_remove (hashK : K → Nat) (N : Nat) (hN : 0 < N)
    (t : threadsafe_hashtable K V) (k : K) (h : WF hashK N t) :
    WF hashK N (remove hashK N t k).2 := by
  unfold remove
  dsimp only
  have hcount := countP_match_key_le_one (h.2.1 (get_bucket hashK N k)) k
  have hlim : (t.buckets_ (get_bucket hashK N k)).countP
      (hpair.match_key · k) ≤ threadsafe_list.SIZE_MAX :=
    le_trans hcount threadsafe_list.SIZE_MAX_pos
  rw [threadsafe_list.remove_if_spec _ _ _ hlim]
  dsimp only
  by_cases hz : (t.buckets_ (get_bucket hashK N k)).countP
      (hpair.match_key · k) = 0
  · rw [if_neg (by simpa using hz)]
    have hfilter : ((t.buckets_ (get_bucket hashK N k)).filter
        fun x => !x.match_key k) = t.buckets_ (get_bucket hashK N k) := by
      apply List.filter_eq_self.mpr
      intro a ha
      have := List.countP_eq_zero.mp hz a ha
      simp [this]
    rw [hfilter, Function.update_eq_self]
    exact h
  · have hone : (t.buckets_ (get_bucket hashK N k)).countP
        (hpair.match_key · k) = 1 := by omega
    rw [if_pos (by simpa using hz)]
    exact WF_update_filter hashK N hN t k
      ⟨h.1, h.2.1, h.2.2.1, h.2.2.2.1, h.2.2.2.2⟩ hone

theorem WF_get_or_insert (hashK : K → Nat) (N : Nat) (hN : 0 < N)
    (t : threadsafe_hashtable K V) (k : K) (sup : Unit → V)
    (h : WF hashK N t) :
    WF hashK N (get_or_insert hashK N t k sup).2 := by
  unfold get_or_insert
  cases hget : get hashK N t k with
  | some w => exact h
  | none =>
    dsimp only
    cases hfind : threadsafe_list.find_first_if (hpair.match_key · k)
        (t.buckets_ (get_bucket hashK N k)) with
    | some p => exact h
    | none =>
      dsimp only
      refine WF_update_cons hashK N hN t k (some (sup ())) rfl h ?_
      intro hmem
      obtain ⟨p, hp, hpk⟩ := List.mem_map.mp hmem
      rw [threadsafe_list.find_first_if_eq_find] at hfind
      have := List.find?_eq_none.mp hfind p hp
      exact this (by simp [hpair.match_key, hpk])

theorem WF_applyOp (hashK : K → Nat) (N : Nat) (hN : 0 < N)
    (t : threadsafe_hashtable K V) (op : Op K V) (h : WF hashK N t) :
    WF hashK N (applyOp hashK N t op) := by
  cases op with
  | insert k v => exact WF_insert hashK N hN t k v h
  | replace k v => exact WF_replace hashK N hN t k v h
  | insert_or_replace k v => exact WF_insert_or_replace hashK N hN t k v h
  | remove k => exact WF_remove hashK N hN t k h
  | get_or_insert k v => exact WF_get_or_insert hashK N hN t k (fun _ => v) h
  | clear => exact WF_empty hashK N

theorem WF_applyOps (hashK : K → Nat) (N : Nat) (hN : 0 < N)
    (ops : List (Op K V)) :
    ∀ t : threadsafe_hashtable K V, WF hashK N t →
      WF hashK N (applyOps hashK N t ops) := by
  induction ops with
  | nil => intro t h; exact h
  | cons op ops ih =>
    intro t h
    exact ih _ (WF_applyOp hashK N hN t op h)

theorem keyCount_le_one (hashK : K → Nat) (N : Nat)
    (t : threadsafe_hashtable K V) (h : WF hashK N t) (k : K) :
    keyCount t N k ≤ 1 := by
  obtain ⟨h1, h2, _, _, _⟩ := h
  have hzero : ∀ j, j ≠ get_bucket hashK N k →
      (t.buckets_ j).countP (hpair.match_key · k) = 0 := by
    intro j hj
    apply List.countP_eq_zero.mpr
    intro p hp hpk
    have hkey : p.key_ = k := by simpa [hpair.match_key] using hpk
    exact hj (by rw [← h1 j p hp, hkey])
  have hbound := sum_le_single
    (fun j => (t.buckets_ j).countP (hpair.match_key · k))
    (get_bucket hashK N k) hzero N
  have hb := countP_match_key_le_one (h2 (get_bucket hashK N k)) k
  unfold keyCount
  omega

end threadsafe_hashtable

/-- C6: after every finite sequence of hashtable operations (`insert`,
`replace`, `insert_or_replace`, `remove`, `get_or_insert`, `clear`) applied to
a freshly constructed table with `N > 0` buckets, each key appears at most
once across the whole map, every stored pair holds a non-null value, and
`size()` equals the total number of stored key/value pairs across all
buckets. -/
theorem C6_hashtable_invariants (K V : Type u) [DecidableEq K]
    (hashK : K → Nat) (N : Nat) (hN : 0 < N)
    (ops : List (threadsafe_hashtable.Op K V)) :
    (∀ k : K,
        threadsafe_hashtable.keyCount
          (threadsafe_hashtable.applyOps hashK N threadsafe_hashtable.empty
            ops) N k ≤ 1) ∧
      (∀ j, ∀ p ∈ (threadsafe_hashtable.applyOps hashK N
          threadsafe_hashtable.empty ops).buckets_ j, p.value_.isSome) ∧
      threadsafe_hashtable.size
          (threadsafe_hashtable.applyOps hashK N threadsafe_hashtable.empty
            ops) =
        threadsafe_hashtable.totalPairs
          (threadsafe_hashtable.applyOps hashK N threadsafe_hashtable.empty
            ops) N := by
  have hwf := threadsafe_hashtable.WF_applyOps hashK N hN ops
    threadsafe_hashtable.empty (threadsafe_hashtable.WF_empty hashK N)
  exact ⟨fun k => threadsafe_hashtable.keyCount_le_one hashK N _ hwf k,
    hwf.2.2.1, hwf.2.2.2.2⟩

/-- C6 witness: the invariants instantiated at a concrete table with 61
buckets, the identity hash, and a concrete two-operation sequence. -/
theorem C6_hashtable_invariants_witness :
    0 < 61 ∧
      ((∀ k : Nat,
          threadsafe_hashtable.keyCount
            (threadsafe_hashtable.applyOps id 61 threadsafe_hashtable.empty
              [threadsafe_hashtable.Op.insert (0 : Nat) (5 : Nat),
                threadsafe_hashtable.Op.remove 0]) 61 k ≤ 1) ∧
        (∀ j, ∀ p ∈ (threadsafe_hashtable.applyOps id 61
            threadsafe_hashtable.empty
            [threadsafe_hashtable.Op.insert (0 : Nat) (5 : Nat),
              threadsafe_hashtable.Op.remove 0]).buckets_ j,
          p.value_.isSome) ∧
        threadsafe_hashtable.size
            (threadsafe_hashtable.applyOps id 61 threadsafe_hashtable.empty
              [threadsafe_hashtable.Op.insert (0 : Nat) (5 : Nat),
                threadsafe_hashtable.Op.remove 0]) =
          threadsafe_hashtable.totalPairs
            (threadsafe_hashtable.applyOps id 61 threadsafe_hashtable.empty
              [threadsafe_hashtable.Op.insert (0 : Nat) (5 : Nat),
                threadsafe_hashtable.Op.remove 0]) 61) :=
  ⟨by decide,
    C6_hashtable_invariants Nat Nat id 61 (by decide)
      [threadsafe_hashtable.Op.insert 0 5, threadsafe_hashtable.Op.remove 0]⟩

/-- C3 counterexample: the hashtable declared in
src/src/container/threadsafe_hashtable.h has default bucket count 47, not 61
(the claimed default 61 is only the src/mt/container variant's). -/
theorem C3_default_bucket_count_counterexample :
    threadsafe_hashtable.N_default_container = 47 ∧
      ¬ threadsafe_hashtable.N_default_container = 61 := by
  constructor <;> decide

/-- C3 (amended): the bucket count is the template argument `N`, fixed for the
table's lifetime; every operation on key `k` reads and writes only bucket
`hash(k) mod N`, which lies below `N`; the defaults are 61 (src/mt variant)
and 47 (src/src/container variant), both prime. -/
theorem C3_fixed_buckets_and_assignment (K V : Type u) [DecidableEq K]
    (hashK : K → Nat) (N : Nat) (hN : 0 < N)
    (t : threadsafe_hashtable K V) (k : K) (v : V) (sup : Unit → V)
    (j : Nat) (hj : j ≠ threadsafe_hashtable.get_bucket hashK N k) :
    threadsafe_hashtable.get_bucket hashK N k = hashK k % N ∧
      threadsafe_hashtable.get_bucket hashK N k < N ∧
      (threadsafe_hashtable.insert hashK N t k v).2.buckets_ j =
        t.buckets_ j ∧
      (threadsafe_hashtable.replace hashK N t k v).2.buckets_ j =
        t.buckets_ j ∧
      (threadsafe_hashtable.insert_or_replace hashK N t k v).2.buckets_ j =
        t.buckets_ j ∧
      (threadsafe_hashtable.remove hashK N t k).2.buckets_ j =
        t.buckets_ j ∧
      (threadsafe_hashtable.get_or_insert hashK N t k sup).2.buckets_ j =
        t.buckets_ j ∧
      (∀ t₂ : threadsafe_hashtable K V,
          t₂.buckets_ (threadsafe_hashtable.get_bucket hashK N k) =
            t.buckets_ (threadsafe_hashtable.get_bucket hashK N k) →
          threadsafe_hashtable.get hashK N t₂ k =
              threadsafe_hashtable.get hashK N t k ∧
            threadsafe_hashtable.has hashK N t₂ k =
              threadsafe_hashtable.has hashK N t k) ∧
      threadsafe_hashtable.N_default_mt = 61 ∧
      Nat.Prime threadsafe_hashtable.N_default_mt ∧
      threadsafe_hashtable.N_default_container = 47 ∧
      Nat.Prime threadsafe_hashtable.N_default_container := by
  refine ⟨rfl, Nat.mod_lt _ hN, ?_, ?_, ?_, ?_, ?_, ?_, rfl, ?_, rfl, ?_⟩
  · unfold threadsafe_hashtable.insert threadsafe_hashtable.do_insert
    dsimp only
    split
    · exact Function.update_noteq hj _ _
    · rfl
  · unfold threadsafe_hashtable.replace threadsafe_hashtable.do_replace
    dsimp only
    exact Function.update_noteq hj _ _
  · unfold threadsafe_hashtable.insert_or_replace
      threadsafe_hashtable.do_insert_or_replace
    dsimp only
    split
    · exact Function.update_noteq hj _ _
    · exact Function.update_noteq hj _ _
  · unfold threadsafe_hashtable.remove
    dsimp only
    split
    · exact Function.update_noteq hj _ _
    · exact Function.update_noteq hj _ _
  · unfold threadsafe_hashtable.get_or_insert
    dsimp only
    split
    · rfl
    · split
      · rfl
      · exact Function.update_noteq hj _ _
  · intro t₂ ht₂
    constructor
    · unfold threadsafe_hashtable.get
      rw [ht₂]
    · unfold threadsafe_hashtable.has
      rw [ht₂]
  · norm_num [threadsafe_hashtable.N_default_mt]
  · norm_num [threadsafe_hashtable.N_default_container]

/-- C3 witness: the amended statement instantiated at the identity hash,
61 buckets, the empty table, key 0 and the untouched bucket 1. -/
theorem C3_fixed_buckets_witness :
    0 < 61 ∧ (1 : Nat) ≠ threadsafe_hashtable.get_bucket id 61 (0 : Nat) ∧
      (threadsafe_hashtable.insert id 61
          (threadsafe_hashtable.empty (K := Nat) (V := Nat)) 0 5).2.buckets_ 1 =
        (threadsafe_hashtable.empty (K := Nat) (V := Nat)).buckets_ 1 ∧
      Nat.Prime threadsafe_hashtable.N_default_mt ∧
      Nat.Prime threadsafe_hashtable.N_default_container :=
  ⟨by decide, by decide,
    (C3_fixed_buckets_and_assignment Nat Nat id 61 (by decide)
        threadsafe_hashtable.empty 0 5 (fun _ => 0) 1 (by decide)).2.2.1,
    (C3_fixed_buckets_and_assignment Nat Nat id 61 (by decide)
        threadsafe_hashtable.empty 0 5 (fun _ => 0) 1 (by decide)).2.2.2.2.2.2.2.2.2.1,
    (C3_fixed_buckets_and_assignment Nat Nat id 61 (by decide)
        threadsafe_hashtable.empty 0 5 (fun _ => 0) 1 (by decide)).2.2.2.2.2.2.2.2.2.2.2⟩

/-! ### Thread pool: index and pop-step lemmas -/

namespace thread_pool

theorem pget_lt_length (l : List β) :
    ∀ (i : Nat) (a : β), l.get? i = some a → i < l.length := by
  induction l with
  | nil => intro i a h; simp at h
  | cons x xs ih =>
    intro i a h
    cases i with
    | zero => simp
    | succ i =>
      simp only [List.get?_cons_succ] at h
      have := ih i a h
      simp only [List.length_cons]
      omega

theorem pget_set_self (l : List β) :
    ∀ (i : Nat) (a : β), i < l.length → (l.set i a).get? i = some a := by
  induction l with
  | nil => intro i a h; simp at h
  | cons x xs ih =>
    intro i a h
    cases i with
    | zero => rfl
    | succ i =>
      simp only [List.length_cons] at h
      exact ih i a (by omega)

theorem pget_set_other (l : List β) :
    ∀ (i j : Nat) (a : β), i ≠ j → (l.set i a).get? j = l.get? j := by
  induction l with
  | nil => intro i j a _; simp
  | cons x xs ih =>
    intro i j a hij
    cases i with
    | zero =>
      cases j with
      | zero => exact absurd rfl hij
      | succ j => rfl
    | succ i =>
      cases j with
      | zero => rfl
      | succ j => exact ih i j a (by omega)

theorem pget_append_left (l m : List β) :
    ∀ i : Nat, i < l.length → (l ++ m).get? i = l.get? i := by
  induction l with
  | nil => intro i h; simp at h
  | cons x xs ih =>
    intro i h
    cases i with
    | zero => rfl
    | succ i =>
      simp only [List.length_cons] at h
      exact ih i (by omega)

theorem pget_concat_self (l : List β) (a : β) :
    (l ++ [a]).get? l.length = some a := by
  induction l with
  | nil => rfl
  | cons x xs ih => exact ih

theorem pget_concat_cases (l : List β) (x : β) (i : Nat) (y : β)
    (h : (l ++ [x]).get? i = some y) :
    (i < l.length ∧ l.get? i = some y) ∨ (i = l.length ∧ y = x) := by
  by_cases hi : i < l.length
  · exact Or.inl ⟨hi, by rw [← pget_append_left l [x] i hi]; exact h⟩
  · right
    have hlt := pget_lt_length _ i y h
    simp only [List.length_append, List.length_cons, List.length_nil] at hlt
    have hieq : i = l.length := by omega
    subst hieq
    rw [pget_concat_self] at h
    exact ⟨rfl, (Option.some.inj h).symm⟩

theorem stack_try_pop_some (s : threadsafe_stack (pool_task V))
    (t : pool_task V) (h : s.try_pop.1 = some t) :
    s.top_ = t :: s.try_pop.2.top_ := by
  obtain ⟨top, n⟩ := s
  cases top with
  | nil => exact absurd h (by simp [threadsafe_stack.try_pop])
  | cons v rest =>
    have hred : threadsafe_stack.try_pop
        (⟨v :: rest, n⟩ : threadsafe_stack (pool_task V)) =
        (some v, ⟨rest, n - 1⟩) := rfl
    rw [hred] at h ⊢
    injection h with h
    subst h
    rfl

theorem queue_try_pop_some (q : threadsafe_queue (pool_task V))
    (t : pool_task V) (h : q.try_pop.1 = some t) :
    q.nodes = t :: q.try_pop.2.nodes := by
  obtain ⟨nodes, n⟩ := q
  cases nodes with
  | nil => exact absurd h (by simp [threadsafe_queue.try_pop])
  | cons v rest =>
    have hred : threadsafe_queue.try_pop
        (⟨v :: rest, n⟩ : threadsafe_queue (pool_task V)) =
        (some v, ⟨rest, n - 1⟩) := rfl
    rw [hred] at h ⊢
    injection h with h
    subst h
    rfl

theorem stacksTasks_decomp (i : Nat) :
    ∀ (ls : List (threadsafe_stack (pool_task V)))
      (s : threadsafe_stack (pool_task V)), ls.get? i = some s →
      ∃ L R, stacksTasks ls = L ++ (s.top_ ++ R) ∧
        ∀ s2, stacksTasks (ls.set i s2) = L ++ (s2.top_ ++ R) := by
  induction i with
  | zero =>
    intro ls s hget
    cases ls with
    | nil => simp at hget
    | cons s0 rest =>
      injection hget with hget
      subst hget
      exact ⟨[], stacksTasks rest, rfl, fun s2 => rfl⟩
  | succ i ih =>
    intro ls s hget
    cases ls with
    | nil => simp at hget
    | cons s0 rest =>
      simp only [List.get?_cons_succ] at hget
      obtain ⟨L, R, hdec, hset⟩ := ih rest s hget
      refine ⟨s0.top_ ++ L, R, ?_, ?_⟩
      · show s0.top_ ++ stacksTasks rest = (s0.top_ ++ L) ++ (s.top_ ++ R)
        rw [hdec, List.append_assoc]
      · intro s2
        show s0.top_ ++ stacksTasks (rest.set i s2) =
          (s0.top_ ++ L) ++ (s2.top_ ++ R)
        rw [hset s2, List.append_assoc]

theorem popsTo_get_local (p : thread_pool V) (i : Nat) :
    PopsTo p (get_local_task p i).2 (get_local_task p i).1 := by
  unfold get_local_task
  cases hget : p.local_task_queues_.get? i with
  | none => exact rfl
  | some s =>
    dsimp only
    cases hpop : s.try_pop.1 with
    | none => exact rfl
    | some t =>
      dsimp only
      refine ⟨rfl, rfl, rfl, ?_⟩
      obtain ⟨L, R, hdec, hset⟩ := stacksTasks_decomp i
        p.local_task_queues_ s hget
      have htop := stack_try_pop_some s t hpop
      refine ⟨p.global_task_queue_.nodes ++ L, s.try_pop.2.top_ ++ R, ?_, ?_⟩
      · show p.global_task_queue_.nodes ++ stacksTasks p.local_task_queues_ =
          (p.global_task_queue_.nodes ++ L) ++ (t :: (s.try_pop.2.top_ ++ R))
        rw [hdec, htop]
        simp [List.append_assoc]
      · show p.global_task_queue_.nodes ++
            stacksTasks (p.local_task_queues_.set i s.try_pop.2) =
          (p.global_task_queue_.nodes ++ L) ++ (s.try_pop.2.top_ ++ R)
        rw [hset s.try_pop.2]
        simp [List.append_assoc]

theorem popsTo_get_global (p : thread_pool V) :
    PopsTo p (get_global_task p).2 (get_global_task p).1 := by
  unfold get_global_task
  dsimp only
  cases hpop : p.global_task_queue_.try_pop.1 with
  | none => exact rfl
  | some t =>
    dsimp only
    refine ⟨rfl, rfl, rfl, [],
      p.global_task_queue_.try_pop.2.nodes ++
        stacksTasks p.local_task_queues_, ?_, ?_⟩
    · show p.global_task_queue_.nodes ++ stacksTasks p.local_task_queues_ =
        [] ++ (t :: (p.global_task_queue_.try_pop.2.nodes ++
          stacksTasks p.local_task_queues_))
      rw [queue_try_pop_some p.global_task_queue_ t hpop]
      simp
    · show p.global_task_queue_.try_pop.2.nodes ++
          stacksTasks p.local_task_queues_ =
        [] ++ (p.global_task_queue_.try_pop.2.nodes ++
          stacksTasks p.local_task_queues_)
      simp

theorem popsTo_steal_from (js : List Nat) :
    ∀ p : thread_pool V, PopsTo p (steal_from p js).2 (steal_from p js).1 := by
  induction js with
  | nil => intro p; exact rfl
  | cons j rest ih =>
    intro p
    unfold steal_from
    dsimp only
    cases hpop : (get_local_task p j).1 with
    | some t =>
      dsimp only
      have := popsTo_get_local p j
      rw [hpop] at this
      exact this
    | none =>
      dsimp only
      have hq : (get_local_task p j).2 = p := by
        have := popsTo_get_local p j
        rw [hpop] at this
        exact this
      rw [hq]
      exact ih p

theorem popsTo_steal_task (p : thread_pool V) (i : Nat) :
    PopsTo p (steal_task p i).2 (steal_task p i).1 :=
  popsTo_steal_from _ p

end thread_pool

/-! ### Thread pool: invariant preservation -/

namespace thread_pool

theorem pgetD_of_get (l : List Nat) :
    ∀ (i a : Nat), l.get? i = some a → l.getD i 0 = a := by
  induction l with
  | nil => intro i a h; simp at h
  | cons x xs ih =>
    intro i a h
    cases i with
    | zero =>
      simp only [List.get?_cons_zero, Option.some.injEq] at h
      simp [h]
    | succ i =>
      simp only [List.get?_cons_succ] at h
      simpa using ih i a h

theorem popsTo_frames {p q : thread_pool V} {ot : Option (pool_task V)}
    (h : PopsTo p q ot) :
    q.handles_ = p.handles_ ∧ q.submitted_ = p.submitted_ ∧
      q.run_counts_ = p.run_counts_ := by
  cases ot with
  | none => rw [show q = p from h]; exact ⟨rfl, rfl, rfl⟩
  | some t => exact ⟨h.1, h.2.1, h.2.2.1⟩

theorem nodup_middle_extract {a : β} :
    ∀ l₁ l₂ : List β, (l₁ ++ a :: l₂).Nodup → a ∉ (l₁ ++ l₂) ∧ (l₁ ++ l₂).Nodup := by
  intro l₁
  induction l₁ with
  | nil =>
    intro l₂ h
    simp only [List.nil_append] at h ⊢
    have := List.nodup_cons.mp h
    exact ⟨this.1, this.2⟩
  | cons x xs ih =>
    intro l₂ h
    simp only [List.cons_append] at h ⊢
    obtain ⟨hx, h2⟩ := List.nodup_cons.mp h
    obtain ⟨ha, hn⟩ := ih l₂ h2
    refine ⟨?_, List.nodup_cons.mpr ⟨?_, hn⟩⟩
    · intro hmem
      rcases List.mem_cons.mp hmem with h4 | hmem2
      · exact hx (h4 ▸ List.mem_append.mpr (Or.inr (List.mem_cons_self _ _)))
      · exact ha hmem2
    · intro hmem
      apply hx
      rcases List.mem_append.mp hmem with h3 | h3
      · exact List.mem_append.mpr (Or.inl h3)
      · exact List.mem_append.mpr (Or.inr (List.mem_cons_of_mem _ h3))

theorem nodup_middle_insert {a : β} :
    ∀ l₁ l₂ : List β, (l₁ ++ l₂).Nodup → a ∉ (l₁ ++ l₂) →
      (l₁ ++ a :: l₂).Nodup := by
  intro l₁
  induction l₁ with
  | nil =>
    intro l₂ h ha
    exact List.nodup_cons.mpr ⟨by simpa using ha, h⟩
  | cons x xs ih =>
    intro l₂ h ha
    simp only [List.cons_append] at h ⊢
    obtain ⟨hx, h2⟩ := List.nodup_cons.mp h
    refine List.nodup_cons.mpr
      ⟨?_, ih l₂ h2 (fun hm => ha (List.mem_cons_of_mem _ hm))⟩
    intro hmem
    rcases List.mem_append.mp hmem with h3 | h3
    · exact hx (List.mem_append.mpr (Or.inl h3))
    · rcases List.mem_cons.mp h3 with h4 | h4
      · exact ha (h4 ▸ List.mem_cons_self _ _)
      · exact hx (List.mem_append.mpr (Or.inr h4))

theorem poolInv_run_task_of_pops (p q : thread_pool V) (t : pool_task V)
    (hinv : PoolInv p) (hpops : PopsTo p q (some t)) :
    PoolInv (run_task q t) := by
  obtain ⟨hlenS, hlenC, hnodup, htasks, hready⟩ := hinv
  obtain ⟨hH, hS, hC, l₁, l₂, hdp, hdq⟩ := hpops
  have htmem : t ∈ p.allTasks := by
    rw [hdp]; exact List.mem_append.mpr (Or.inr (List.mem_cons_self _ _))
  obtain ⟨hpend, hsubm, hcnt0⟩ := htasks t htmem
  have hhlt : t.handle < p.handles_.length := pget_lt_length _ _ _ hpend
  have hclt : t.handle < p.run_counts_.length := by omega
  have hnodup2 : (t.handle ∉ ((l₁ ++ l₂).map pool_task.handle)) ∧
      ((l₁ ++ l₂).map pool_task.handle).Nodup := by
    rw [hdp] at hnodup
    simp only [List.map_append, List.map_cons] at hnodup
    have h2 := nodup_middle_extract _ _ hnodup
    rwa [← List.map_append] at h2
  have hne : ∀ t2 ∈ l₁ ++ l₂, t2.handle ≠ t.handle := by
    intro t2 ht2 heq
    exact hnodup2.1 (heq ▸ List.mem_map.mpr ⟨t2, ht2, rfl⟩)
  have hmem_old : ∀ t2 ∈ l₁ ++ l₂, t2 ∈ p.allTasks := by
    intro t2 ht2
    rw [hdp]
    rcases List.mem_append.mp ht2 with h2 | h2
    · exact List.mem_append.mpr (Or.inl h2)
    · exact List.mem_append.mpr (Or.inr (List.mem_cons_of_mem _ h2))
  have hallTasks : (run_task q t).allTasks = l₁ ++ l₂ := hdq
  refine ⟨?_, ?_, ?_, ?_, ?_⟩
  · show q.submitted_.length = (q.handles_.set t.handle _).length
    rw [List.length_set, hS, hH]; exact hlenS
  · show (q.run_counts_.set t.handle _).length = (q.handles_.set t.handle _).length
    rw [List.length_set, List.length_set, hC, hH]; exact hlenC
  · rw [hallTasks]; exact hnodup2.2
  · intro t2 ht2
    rw [hallTasks] at ht2
    obtain ⟨hp2, hs2, hc2⟩ := htasks t2 (hmem_old t2 ht2)
    have hne2 := hne t2 ht2
    refine ⟨?_, ?_, ?_⟩
    · show (q.handles_.set t.handle _).get? t2.handle = _
      rw [pget_set_other _ _ _ _ (fun he => hne2 he.symm), hH]; exact hp2
    · show q.submitted_.get? t2.handle = _
      rw [hS]; exact hs2
    · show (q.run_counts_.set t.handle _).get? t2.handle = _
      rw [pget_set_other _ _ _ _ (fun he => hne2 he.symm), hC]; exact hc2
  · intro h v hv
    have hv2 : (q.handles_.set t.handle
        (HandleState.ready (t.callable ()))).get? h =
        some (HandleState.ready v) := hv
    by_cases hh : h = t.handle
    · subst hh
      have hvset : (q.handles_.set t.handle
          (HandleState.ready (t.callable ()))).get? t.handle
          = some (HandleState.ready (t.callable ())) := by
        apply pget_set_self
        rw [hH]; exact hhlt
      rw [hvset] at hv2
      have hveq : v = t.callable () := by
        have h2 := Option.some.inj hv2
        injection h2 with h3
        exact h3.symm
      have hgd : q.run_counts_.getD t.handle 0 = 0 := by
        apply pgetD_of_get
        rw [hC]; exact hcnt0
      refine ⟨?_, t.callable, ?_, hveq⟩
      · show (q.run_counts_.set t.handle _).get? t.handle = some 1
        rw [hgd]
        apply pget_set_self
        rw [hC]; exact hclt
      · show q.submitted_.get? t.handle = some t.callable
        rw [hS]; exact hsubm
    · have hv3 : p.handles_.get? h = some (HandleState.ready v) := by
        rw [← hH, ← pget_set_other q.handles_ t.handle h
          (HandleState.ready (t.callable ())) (fun he => hh he.symm)]
        exact hv2
      obtain ⟨hc1, f2, hf2, hveq⟩ := hready h v hv3
      refine ⟨?_, f2, ?_, hveq⟩
      · show (q.run_counts_.set t.handle _).get? h = some 1
        rw [pget_set_other _ _ _ _ (fun he => hh he.symm), hC]; exact hc1
      · show q.submitted_.get? h = some f2
        rw [hS]; exact hf2

theorem poolInv_run_local (p : thread_pool V) (i : Nat) (h : PoolInv p) :
    PoolInv (run_local_task p i).2 := by
  unfold run_local_task
  dsimp only
  cases hpop : (get_local_task p i).1 with
  | some t =>
    dsimp only
    refine poolInv_run_task_of_pops p _ t h ?_
    have := popsTo_get_local p i
    rwa [hpop] at this
  | none =>
    dsimp only
    have := popsTo_get_local p i
    rw [hpop] at this
    rw [show (get_local_task p i).2 = p from this]
    exact h

theorem poolInv_run_global (p : thread_pool V) (h : PoolInv p) :
    PoolInv (run_global_task p).2 := by
  unfold run_global_task
  dsimp only
  cases hpop : (get_global_task p).1 with
  | some t =>
    dsimp only
    refine poolInv_run_task_of_pops p _ t h ?_
    have := popsTo_get_global p
    rwa [hpop] at this
  | none =>
    dsimp only
    have := popsTo_get_global p
    rw [hpop] at this
    rw [show (get_global_task p).2 = p from this]
    exact h

theorem poolInv_run_stolen (p : thread_pool V) (i : Nat) (h : PoolInv p) :
    PoolInv (run_stolen_task p i).2 := by
  unfold run_stolen_task
  dsimp only
  cases hpop : (steal_task p i).1 with
  | some t =>
    dsimp only
    refine poolInv_run_task_of_pops p _ t h ?_
    have := popsTo_steal_task p i
    rwa [hpop] at this
  | none =>
    dsimp only
    have := popsTo_steal_task p i
    rw [hpop] at this
    rw [show (steal_task p i).2 = p from this]
    exact h

theorem poolInv_worker_iteration (p : thread_pool V) (i : Nat)
    (h : PoolInv p) : PoolInv (worker_iteration p i).2 := by
  unfold worker_iteration
  dsimp only
  by_cases h1 : (p.run_local_task i).1 = true
  · rw [if_pos h1]
    exact poolInv_run_local p i h
  · rw [if_neg h1]
    by_cases h2 : ((p.run_local_task i).2.run_global_task).1 = true
    · rw [if_pos h2]
      exact poolInv_run_global _ (poolInv_run_local p i h)
    · rw [if_neg h2]
      exact poolInv_run_stolen _ i (poolInv_run_global _ (poolInv_run_local p i h))

theorem poolInv_run_pending (p : thread_pool V) (tid : Nat) (h : PoolInv p) :
    PoolInv (run_pending_task p tid).2 := by
  unfold run_pending_task
  cases lookup_at p.worker_index_lookup_ tid with
  | some i =>
    dsimp only
    by_cases h1 : (p.run_local_task i).1 = true
    · rw [if_pos h1]
      exact poolInv_run_local p i h
    · rw [if_neg h1]
      by_cases h2 : ((p.run_local_task i).2.run_global_task).1 = true
      · rw [if_pos h2]
        exact poolInv_run_global _ (poolInv_run_local p i h)
      · rw [if_neg h2]
        exact poolInv_run_stolen _ i
          (poolInv_run_global _ (poolInv_run_local p i h))
  | none =>
    dsimp only
    by_cases h2 : (p.run_global_task).1 = true
    · rw [if_pos h2]
      exact poolInv_run_global _ h
    · rw [if_neg h2]
      exact poolInv_run_stolen _ 0 (poolInv_run_global _ h)

theorem poolInv_stores_append (p q : thread_pool V) (f : Unit → V)
    (hinv : PoolInv p)
    (hH : q.handles_ = p.handles_ ++ [HandleState.pending])
    (hS : q.submitted_ = p.submitted_ ++ [f])
    (hC : q.run_counts_ = p.run_counts_ ++ [0])
    (hdec : ∃ l₁ l₂, p.allTasks = l₁ ++ l₂ ∧
      q.allTasks = l₁ ++ (⟨f, p.handles_.length⟩ : pool_task V) :: l₂) :
    PoolInv q := by
  obtain ⟨hlenS, hlenC, hnodup, htasks, hready⟩ := hinv
  obtain ⟨l₁, l₂, hdp, hdq⟩ := hdec
  have hold_lt : ∀ t2 ∈ p.allTasks, t2.handle < p.handles_.length :=
    fun t2 ht2 => pget_lt_length _ _ _ (htasks t2 ht2).1
  refine ⟨?_, ?_, ?_, ?_, ?_⟩
  · rw [hH, hS]
    simp only [List.length_append, List.length_cons, List.length_nil]
    omega
  · rw [hH, hC]
    simp only [List.length_append, List.length_cons, List.length_nil]
    omega
  · rw [hdq]
    simp only [List.map_append, List.map_cons]
    apply nodup_middle_insert
    · rw [← List.map_append, ← hdp]
      exact hnodup
    · rw [← List.map_append]
      intro hmem
      obtain ⟨t2, ht2, hh2⟩ := List.mem_map.mp hmem
      have hmem2 : t2 ∈ p.allTasks := by rw [hdp]; exact ht2
      have := hold_lt t2 hmem2
      have hh3 : t2.handle = p.handles_.length := hh2
      omega
  · intro t2 ht2
    rw [hdq] at ht2
    rcases List.mem_append.mp ht2 with h2 | h2
    · have hmem : t2 ∈ p.allTasks := by
        rw [hdp]; exact List.mem_append.mpr (Or.inl h2)
      obtain ⟨hp2, hs2, hc2⟩ := htasks t2 hmem
      have hlt := hold_lt t2 hmem
      refine ⟨?_, ?_, ?_⟩
      · rw [hH, pget_append_left _ _ _ hlt]; exact hp2
      · rw [hS, pget_append_left _ _ _ (by omega)]; exact hs2
      · rw [hC, pget_append_left _ _ _ (by omega)]; exact hc2
    · rcases List.mem_cons.mp h2 with rfl | h2
      · refine ⟨?_, ?_, ?_⟩
        · rw [hH]
          exact pget_concat_self _ _
        · rw [hS, show p.handles_.length = p.submitted_.length from by omega]
          exact pget_concat_self _ _
        · rw [hC, show p.handles_.length = p.run_counts_.length from by omega]
          exact pget_concat_self _ _
      · have hmem : t2 ∈ p.allTasks := by
          rw [hdp]; exact List.mem_append.mpr (Or.inr h2)
        obtain ⟨hp2, hs2, hc2⟩ := htasks t2 hmem
        have hlt := hold_lt t2 hmem
        refine ⟨?_, ?_, ?_⟩
        · rw [hH, pget_append_left _ _ _ hlt]; exact hp2
        · rw [hS, pget_append_left _ _ _ (by omega)]; exact hs2
        · rw [hC, pget_append_left _ _ _ (by omega)]; exact hc2
  · intro h v hv
    rw [hH] at hv
    rcases pget_concat_cases _ _ _ _ hv with ⟨hlt, hold⟩ | ⟨_, hbad⟩
    · obtain ⟨hc1, f2, hf2, hveq⟩ := hready h v hold
      refine ⟨?_, f2, ?_, hveq⟩
      · rw [hC, pget_append_left _ _ _ (by omega)]; exact hc1
      · rw [hS, pget_append_left _ _ _
          (by have := pget_lt_length _ _ _ hf2; omega)]
        exact hf2
    · exact absurd hbad (by intro h2; cases h2)

theorem poolInv_stores_append_noqueue (p q : thread_pool V) (f : Unit → V)
    (hinv : PoolInv p)
    (hH : q.handles_ = p.handles_ ++ [HandleState.pending])
    (hS : q.submitted_ = p.submitted_ ++ [f])
    (hC : q.run_counts_ = p.run_counts_ ++ [0])
    (hall : q.allTasks = p.allTasks) :
    PoolInv q := by
  obtain ⟨hlenS, hlenC, hnodup, htasks, hready⟩ := hinv
  refine ⟨?_, ?_, ?_, ?_, ?_⟩
  · rw [hH, hS]
    simp only [List.length_append, List.length_cons, List.length_nil]
    omega
  · rw [hH, hC]
    simp only [List.length_append, List.length_cons, List.length_nil]
    omega
  · rw [hall]; exact hnodup
  · intro t2 ht2
    rw [hall] at ht2
    obtain ⟨hp2, hs2, hc2⟩ := htasks t2 ht2
    have hlt := pget_lt_length _ _ _ hp2
    have hltS := pget_lt_length _ _ _ hs2
    have hltC := pget_lt_length _ _ _ hc2
    exact ⟨by rw [hH, pget_append_left _ _ _ hlt]; exact hp2,
      by rw [hS, pget_append_left _ _ _ hltS]; exact hs2,
      by rw [hC, pget_append_left _ _ _ hltC]; exact hc2⟩
  · intro h v hv
    rw [hH] at hv
    rcases pget_concat_cases _ _ _ _ hv with ⟨hlt, hold⟩ | ⟨_, hbad⟩
    · obtain ⟨hc1, f2, hf2, hveq⟩ := hready h v hold
      refine ⟨?_, f2, ?_, hveq⟩
      · rw [hC, pget_append_left _ _ _ (by omega)]; exact hc1
      · rw [hS, pget_append_left _ _ _
          (by have := pget_lt_length _ _ _ hf2; omega)]
        exact hf2
    · exact absurd hbad (by intro h2; cases h2)

theorem stack_push_top (s : threadsafe_stack (pool_task V)) (t : pool_task V) :
    (s.push t).top_ = t :: s.top_ := rfl

theorem poolInv_submit (p : thread_pool V) (tid : Nat) (f : Unit → V)
    (h : PoolInv p) : PoolInv (p.submit tid f).2 := by
  unfold submit
  dsimp only
  cases hlk : lookup_at p.worker_index_lookup_ tid with
  | none =>
    dsimp only
    refine poolInv_stores_append p _ f h rfl rfl rfl ?_
    refine ⟨p.global_task_queue_.nodes, stacksTasks p.local_task_queues_,
      rfl, ?_⟩
    show (p.global_task_queue_.nodes ++ [(⟨f, p.handles_.length⟩ : pool_task V)])
        ++ stacksTasks p.local_task_queues_ = _
    simp [List.append_assoc]
  | some i =>
    dsimp only
    cases hget : p.local_task_queues_.get? i with
    | none =>
      dsimp only
      exact poolInv_stores_append_noqueue p _ f h rfl rfl rfl rfl
    | some s =>
      dsimp only
      obtain ⟨L, R, hdec, hset⟩ := stacksTasks_decomp i
        p.local_task_queues_ s hget
      refine poolInv_stores_append p _ f h rfl rfl rfl
        ⟨p.global_task_queue_.nodes ++ L, s.top_ ++ R, ?_, ?_⟩
      · show p.global_task_queue_.nodes ++ stacksTasks p.local_task_queues_ = _
        rw [hdec]
        simp [List.append_assoc]
      · show p.global_task_queue_.nodes ++
            stacksTasks (p.local_task_queues_.set i
              (s.push ⟨f, p.handles_.length⟩)) = _
        rw [hset, stack_push_top]
        simp [List.append_assoc]

theorem stacksTasks_replicate_empty :
    ∀ n : Nat, stacksTasks (V := V)
      (List.replicate n threadsafe_stack.empty) = [] := by
  intro n
  induction n with
  | zero => rfl
  | succ n ih =>
    show threadsafe_stack.empty.top_ ++
      stacksTasks (List.replicate n threadsafe_stack.empty) = []
    rw [ih]
    rfl

theorem poolInv_construct (V : Type u) (requested : Nat) (tids : Nat → Nat) :
    PoolInv (construct V requested tids) := by
  have hall : (construct V requested tids).allTasks = [] := by
    show ([] : List (pool_task V)) ++ stacksTasks
      (List.replicate (max requested 1) threadsafe_stack.empty) = []
    rw [stacksTasks_replicate_empty]
    rfl
  refine ⟨rfl, rfl, ?_, ?_, ?_⟩
  · rw [hall]; exact List.nodup_nil
  · intro t2 ht2
    rw [hall] at ht2
    simp at ht2
  · intro h v hv
    simp [construct] at hv

theorem poolInv_apply_event (p : thread_pool V) (e : pool_event V)
    (h : PoolInv p) : PoolInv (apply_event p e) := by
  cases e with
  | submit tid f => exact poolInv_submit p tid f h
  | run_pending tid => exact poolInv_run_pending p tid h
  | worker_step i => exact poolInv_worker_iteration p i h

theorem poolInv_run_events (evs : List (pool_event V)) :
    ∀ p : thread_pool V, PoolInv p → PoolInv (run_events p evs) := by
  induction evs with
  | nil => intro p h; exact h
  | cons e evs ih =>
    intro p h
    exact ih _ (poolInv_apply_event p e h)

end thread_pool

/-! ### Thread pool: result delivery (C1) and shutdown (C5) -/

namespace thread_pool

theorem submitted_run_local_eq (p : thread_pool V) (i : Nat) :
    (run_local_task p i).2.submitted_ = p.submitted_ := by
  unfold run_local_task
  dsimp only
  cases hpop : (get_local_task p i).1 with
  | some t =>
    dsimp only
    have := popsTo_get_local p i
    rw [hpop] at this
    exact this.2.1
  | none =>
    dsimp only
    have := popsTo_get_local p i
    rw [hpop] at this
    rw [show (get_local_task p i).2 = p from this]

theorem submitted_run_global_eq (p : thread_pool V) :
    (run_global_task p).2.submitted_ = p.submitted_ := by
  unfold run_global_task
  dsimp only
  cases hpop : (get_global_task p).1 with
  | some t =>
    dsimp only
    have := popsTo_get_global p
    rw [hpop] at this
    exact this.2.1
  | none =>
    dsimp only
    have := popsTo_get_global p
    rw [hpop] at this
    rw [show (get_global_task p).2 = p from this]

theorem submitted_run_stolen_eq (p : thread_pool V) (i : Nat) :
    (run_stolen_task p i).2.submitted_ = p.submitted_ := by
  unfold run_stolen_task
  dsimp only
  cases hpop : (steal_task p i).1 with
  | some t =>
    dsimp only
    have := popsTo_steal_task p i
    rw [hpop] at this
    exact this.2.1
  | none =>
    dsimp only
    have := popsTo_steal_task p i
    rw [hpop] at this
    rw [show (steal_task p i).2 = p from this]

theorem submitted_worker_iteration_eq (p : thread_pool V) (i : Nat) :
    (worker_iteration p i).2.submitted_ = p.submitted_ := by
  unfold worker_iteration
  dsimp only
  by_cases h1 : (p.run_local_task i).1 = true
  · rw [if_pos h1]
    exact submitted_run_local_eq p i
  · rw [if_neg h1]
    by_cases h2 : ((p.run_local_task i).2.run_global_task).1 = true
    · rw [if_pos h2]
      exact (submitted_run_global_eq _).trans (submitted_run_local_eq p i)
    · rw [if_neg h2]
      exact ((submitted_run_stolen_eq _ i).trans
        (submitted_run_global_eq _)).trans (submitted_run_local_eq p i)

theorem submitted_run_pending_eq (p : thread_pool V) (tid : Nat) :
    (run_pending_task p tid).2.submitted_ = p.submitted_ := by
  unfold run_pending_task
  cases lookup_at p.worker_index_lookup_ tid with
  | some i =>
    dsimp only
    by_cases h1 : (p.run_local_task i).1 = true
    · rw [if_pos h1]
      exact submitted_run_local_eq p i
    · rw [if_neg h1]
      by_cases h2 : ((p.run_local_task i).2.run_global_task).1 = true
      · rw [if_pos h2]
        exact (submitted_run_global_eq _).trans (submitted_run_local_eq p i)
      · rw [if_neg h2]
        exact ((submitted_run_stolen_eq _ i).trans
          (submitted_run_global_eq _)).trans (submitted_run_local_eq p i)
  | none =>
    dsimp only
    by_cases h2 : (p.run_global_task).1 = true
    · rw [if_pos h2]
      exact submitted_run_global_eq p
    · rw [if_neg h2]
      exact (submitted_run_stolen_eq _ 0).trans (submitted_run_global_eq p)

theorem submitted_submit_eq (p : thread_pool V) (tid : Nat) (f : Unit → V) :
    (p.submit tid f).2.submitted_ = p.submitted_ ++ [f] := by
  unfold submit
  dsimp only
  cases lookup_at p.worker_index_lookup_ tid with
  | some i =>
    dsimp only
    cases p.local_task_queues_.get? i <;> rfl
  | none => rfl

theorem submit_fst (p : thread_pool V) (tid : Nat) (f : Unit → V) :
    (p.submit tid f).1 = p.handles_.length := by
  unfold submit
  dsimp only
  cases lookup_at p.worker_index_lookup_ tid with
  | some i =>
    dsimp only
    cases p.local_task_queues_.get? i <;> rfl
  | none => rfl

theorem submitted_stable_run_events (evs : List (pool_event V)) :
    ∀ (p : thread_pool V) (h : Nat) (f : Unit → V),
      p.submitted_.get? h = some f →
      (run_events p evs).submitted_.get? h = some f := by
  induction evs with
  | nil => intro p h f hs; exact hs
  | cons e evs ih =>
    intro p h f hs
    apply ih
    cases e with
    | submit tid f2 =>
      show (p.submit tid f2).2.submitted_.get? h = some f
      rw [submitted_submit_eq]
      rw [pget_append_left _ _ _ (pget_lt_length _ _ _ hs)]
      exact hs
    | run_pending tid =>
      show (p.run_pending_task tid).2.submitted_.get? h = some f
      rw [submitted_run_pending_eq]
      exact hs
    | worker_step i =>
      show (p.worker_iteration i).2.submitted_.get? h = some f
      rw [submitted_worker_iteration_eq]
      exact hs

theorem drop_handle_get_other (hs : List (HandleState V)) (h2 h : Nat)
    (hne : h2 ≠ h) : (drop_handle hs h2).get? h = hs.get? h := by
  unfold drop_handle
  cases hget : hs.get? h2 with
  | none => rfl
  | some st =>
    cases st with
    | pending => exact pget_set_other _ _ _ _ hne
    | ready v => rfl
    | broken => rfl

theorem foldl_drop_frame (ts : List (pool_task V)) :
    ∀ (hs : List (HandleState V)) (h : Nat), (∀ t ∈ ts, t.handle ≠ h) →
      (ts.foldl (fun a t => drop_handle a t.handle) hs).get? h = hs.get? h := by
  induction ts with
  | nil => intro hs h _; rfl
  | cons t0 rest ih =>
    intro hs h hne
    rw [List.foldl_cons]
    rw [ih _ h fun t2 ht2 => hne t2 (List.mem_cons_of_mem _ ht2)]
    exact drop_handle_get_other hs t0.handle h
      (hne t0 (List.mem_cons_self _ _))

theorem foldl_drop_broken (ts : List (pool_task V)) :
    ∀ hs : List (HandleState V),
      (∀ t ∈ ts, hs.get? t.handle = some HandleState.pending) →
      (ts.map pool_task.handle).Nodup →
      ∀ t ∈ ts, (ts.foldl (fun a t2 => drop_handle a t2.handle) hs).get?
        t.handle = some HandleState.broken := by
  induction ts with
  | nil => intro hs _ _ t ht; simp at ht
  | cons t0 rest ih =>
    intro hs hpend hnd t ht
    have hp0 : hs.get? t0.handle = some HandleState.pending :=
      hpend t0 (List.mem_cons_self _ _)
    have hs1 : drop_handle hs t0.handle = hs.set t0.handle
        HandleState.broken := by
      unfold drop_handle
      rw [hp0]
    simp only [List.map_cons, List.nodup_cons] at hnd
    obtain ⟨hnotin, hnd2⟩ := hnd
    have hlt : t0.handle < hs.length := pget_lt_length _ _ _ hp0
    rw [List.foldl_cons, hs1]
    rcases List.mem_cons.mp ht with h4 | ht2
    · subst h4
      have hne2 : ∀ t2 ∈ rest, t2.handle ≠ t.handle := by
        intro t2 ht3 heq
        exact hnotin (heq ▸ List.mem_map.mpr ⟨t2, ht3, rfl⟩)
      rw [foldl_drop_frame rest _ t.handle hne2]
      exact pget_set_self _ _ _ hlt
    · apply ih
      · intro t2 ht3
        rw [pget_set_other _ _ _ _ (by
          intro heq
          exact hnotin (heq ▸ List.mem_map.mpr ⟨t2, ht3, rfl⟩))]
        exact hpend t2 (List.mem_cons_of_mem _ ht3)
      · exact hnd2
      · exact ht2

end thread_pool

/-- C1: for every callable `C` submitted via `thread_pool::submit` in any
pool execution (a constructed pool driven by any sequence of submissions,
worker iterations and cooperative drains), once the returned handle is
ready, taking its value returns exactly the result of invoking `C` once on
its bound arguments, and `C` has been invoked exactly once. -/
theorem C1_submit_take_returns_result (V : Type u) (requested : Nat)
    (tids : Nat → Nat) (evs1 evs2 : List (thread_pool.pool_event V))
    (tid : Nat) (f : Unit → V) (p0 p1 pfin : thread_pool V) (h : Nat)
    (hp0 : p0 = thread_pool.run_events
      (thread_pool.construct V requested tids) evs1)
    (hsub : p0.submit tid f = (h, p1))
    (hfin : pfin = thread_pool.run_events p1 evs2)
    (v : V) (hready : pfin.handles_.get? h = some (HandleState.ready v)) :
    v = f () ∧ pfin.run_counts_.get? h = some 1 ∧
      HandleState.take (HandleState.ready v) = some (Except.ok v) := by
  have hinv0 : thread_pool.PoolInv p0 := by
    rw [hp0]
    exact thread_pool.poolInv_run_events evs1 _
      (thread_pool.poolInv_construct V requested tids)
  have hh : h = p0.handles_.length := by
    have hfst := thread_pool.submit_fst p0 tid f
    rw [hsub] at hfst
    exact hfst
  have hp1 : p1 = (p0.submit tid f).2 := by rw [hsub]
  have hinv1 : thread_pool.PoolInv p1 := by
    rw [hp1]
    exact thread_pool.poolInv_submit p0 tid f hinv0
  have hsubm1 : p1.submitted_.get? h = some f := by
    rw [hp1, thread_pool.submitted_submit_eq p0 tid f, hh,
      show p0.handles_.length = p0.submitted_.length from hinv0.1.symm]
    exact thread_pool.pget_concat_self _ _
  have hinv2 : thread_pool.PoolInv pfin := by
    rw [hfin]
    exact thread_pool.poolInv_run_events evs2 p1 hinv1
  have hsubm2 : pfin.submitted_.get? h = some f := by
    rw [hfin]
    exact thread_pool.submitted_stable_run_events evs2 p1 h f hsubm1
  obtain ⟨hc1, f2, hf2, hveq⟩ := hinv2.2.2.2.2 h v hready
  have hfeq : f2 = f := by
    rw [hf2] at hsubm2
    exact Option.some.inj hsubm2
  exact ⟨by rw [hveq, hfeq], hc1, rfl⟩

/-- C1 witness: a one-worker pool; a task returning 42 submitted from a
non-worker thread and executed by a cooperative drain; its handle holds 42
and its callable ran exactly once. -/
theorem C1_submit_take_returns_result_witness :
    (thread_pool.run_events
        ((thread_pool.construct Nat 1 fun _ => 0).submit 7 fun _ => 42).2
        [thread_pool.pool_event.run_pending 7]).handles_.get? 0 =
      some (HandleState.ready 42) ∧
    (42 : Nat) = (fun _ : Unit => (42 : Nat)) () ∧
    (thread_pool.run_events
        ((thread_pool.construct Nat 1 fun _ => 0).submit 7 fun _ => 42).2
        [thread_pool.pool_event.run_pending 7]).run_counts_.get? 0 =
      some 1 ∧
    HandleState.take (HandleState.ready (42 : Nat)) =
      some (Except.ok 42) := by
  have happ := C1_submit_take_returns_result Nat 1 (fun _ => 0) []
    [thread_pool.pool_event.run_pending 7] 7 (fun _ => 42)
    (thread_pool.construct Nat 1 fun _ => 0)
    ((thread_pool.construct Nat 1 fun _ => 0).submit 7 fun _ => 42).2
    (thread_pool.run_events
      ((thread_pool.construct Nat 1 fun _ => 0).submit 7 fun _ => 42).2
      [thread_pool.pool_event.run_pending 7])
    0 rfl rfl rfl 42 rfl
  exact ⟨rfl, happ.1, happ.2.1, happ.2.2⟩

/-- C5: after any pool execution, the destructor sets the end flag, leaves no
queued task behind, and every task that was still sitting in the global queue
or a local stack is dropped without ever being run (its invocation count
stays 0); its completion handle becomes broken, so consuming it returns the
pool-shutdown error rather than blocking or yielding a value. -/
theorem C5_shutdown_drops_queued_tasks (V : Type u) (requested : Nat)
    (tids : Nat → Nat) (evs : List (thread_pool.pool_event V))
    (p : thread_pool V)
    (hp : p = thread_pool.run_events
      (thread_pool.construct V requested tids) evs) :
    (thread_pool.destruct p).end_flag_ = true ∧
      (thread_pool.destruct p).allTasks = [] ∧
      ∀ t ∈ p.allTasks,
        (thread_pool.destruct p).handles_.get? t.handle =
            some HandleState.broken ∧
          (thread_pool.destruct p).run_counts_.get? t.handle = some 0 ∧
          HandleState.take (HandleState.broken (V := V)) =
            some (Except.error future_error.broken_promise) := by
  have hinv : thread_pool.PoolInv p := by
    rw [hp]
    exact thread_pool.poolInv_run_events evs _
      (thread_pool.poolInv_construct V requested tids)
  obtain ⟨_, _, hnodup, htasks, _⟩ := hinv
  refine ⟨rfl, rfl, ?_⟩
  intro t ht
  refine ⟨?_, (htasks t ht).2.2, rfl⟩
  show (p.allTasks.foldl (fun hs t2 => thread_pool.drop_handle hs t2.handle)
      p.handles_).get? t.handle = some HandleState.broken
  exact thread_pool.foldl_drop_broken p.allTasks p.handles_
    (fun t2 ht2 => (htasks t2 ht2).1) hnodup t ht

/-- C5 witness: a task submitted from a non-worker thread and never run;
destroying the pool leaves its handle broken, its callable unrun, and taking
the handle returns the broken-promise error. -/
theorem C5_shutdown_drops_queued_tasks_witness :
    (thread_pool.destruct (thread_pool.run_events
        (thread_pool.construct Nat 1 fun _ => 0)
        [thread_pool.pool_event.submit 7 fun _ => 42])).end_flag_ = true ∧
    (thread_pool.destruct (thread_pool.run_events
        (thread_pool.construct Nat 1 fun _ => 0)
        [thread_pool.pool_event.submit 7 fun _ => 42])).handles_.get? 0 =
      some HandleState.broken ∧
    (thread_pool.destruct (thread_pool.run_events
        (thread_pool.construct Nat 1 fun _ => 0)
        [thread_pool.pool_event.submit 7 fun _ => 42])).run_counts_.get? 0 =
      some 0 ∧
    HandleState.take (HandleState.broken (V := Nat)) =
      some (Except.error future_error.broken_promise) := by
  have happ := C5_shutdown_drops_queued_tasks Nat 1 (fun _ => 0)
    [thread_pool.pool_event.submit 7 fun _ => 42] _ rfl
  have hmem : (⟨fun _ => (42 : Nat), 0⟩ : pool_task Nat) ∈
      (thread_pool.run_events (thread_pool.construct Nat 1 fun _ => 0)
        [thread_pool.pool_event.submit 7 fun _ => 42]).allTasks :=
    List.mem_singleton.mpr rfl
  have h2 := happ.2.2 _ hmem
  exact ⟨happ.1, h2.1, h2.2.1, h2.2.2⟩

/-! ### Thread pool: submission routing (C4), cooperative drain (C2, C9),
task move semantics (C10) -/

namespace thread_pool

theorem handles_submit_eq (p : thread_pool V) (tid : Nat) (f : Unit → V) :
    (p.submit tid f).2.handles_ = p.handles_ ++ [HandleState.pending] := by
  unfold submit
  dsimp only
  cases lookup_at p.worker_index_lookup_ tid with
  | some i =>
    dsimp only
    cases p.local_task_queues_.get? i <;> rfl
  | none => rfl

theorem queue_try_pop_empty (q : threadsafe_queue (pool_task V))
    (h : q.nodes = []) : q.try_pop = (none, q) := by
  unfold threadsafe_queue.try_pop
  rw [h]
  rfl

theorem run_global_task_empty (p : thread_pool V)
    (hg : p.global_task_queue_.nodes = []) :
    p.run_global_task = (false, p) := by
  unfold run_global_task get_global_task
  rw [queue_try_pop_empty _ hg]

theorem stack_try_pop_empty (s : threadsafe_stack (pool_task V))
    (h : s.top_ = []) : s.try_pop = (none, s) := by
  unfold threadsafe_stack.try_pop
  rw [h]
  rfl

theorem get_local_task_empty (p : thread_pool V) (i : Nat)
    (h : ∀ s, p.local_task_queues_.get? i = some s → s.top_ = []) :
    get_local_task p i = (none, p) := by
  unfold get_local_task
  cases hget : p.local_task_queues_.get? i with
  | none => rfl
  | some s =>
    dsimp only
    rw [stack_try_pop_empty s (h s hget)]

theorem run_local_task_empty (p : thread_pool V) (i : Nat)
    (h : ∀ s, p.local_task_queues_.get? i = some s → s.top_ = []) :
    run_local_task p i = (false, p) := by
  unfold run_local_task
  rw [get_local_task_empty p i h]

theorem steal_from_empty (js : List Nat) :
    ∀ p : thread_pool V,
      (∀ j ∈ js, ∀ s, p.local_task_queues_.get? j = some s → s.top_ = []) →
      steal_from p js = (none, p) := by
  induction js with
  | nil => intro p _; rfl
  | cons j rest ih =>
    intro p h
    unfold steal_from
    rw [get_local_task_empty p j (h j (List.mem_cons_self _ _))]
    dsimp only
    exact ih p fun j2 hj2 => h j2 (List.mem_cons_of_mem _ hj2)

theorem run_stolen_task_empty (p : thread_pool V) (i : Nat)
    (h : ∀ j s, p.local_task_queues_.get? j = some s → s.top_ = []) :
    run_stolen_task p i = (false, p) := by
  unfold run_stolen_task steal_task
  rw [steal_from_empty _ p fun j _ => h j]

theorem steal_task_zero_skips_zero (p : thread_pool V) (j : Nat)
    (hj : j ∈ (List.range' 1 (p.num_threads_ - 1)).map
      fun i => (0 + i) % p.num_threads_) : j ≠ 0 := by
  obtain ⟨i, hi, rfl⟩ := List.mem_map.mp hj
  have hmem := List.mem_range'_1.mp hi
  have h1 : 1 ≤ i := hmem.1
  have h2 : i < p.num_threads_ := by
    have := hmem.2
    omega
  rw [Nat.zero_add, Nat.mod_eq_of_lt h2]
  omega

theorem run_stolen_task_zero_empty (p : thread_pool V)
    (h : ∀ j s, j ≠ 0 → p.local_task_queues_.get? j = some s → s.top_ = []) :
    run_stolen_task p 0 = (false, p) := by
  unfold run_stolen_task steal_task
  rw [steal_from_empty _ p fun j hj s hs =>
    h j s (steal_task_zero_skips_zero p j hj) hs]

end thread_pool

/-- C4: `submit` creates a fresh pending completion handle bound to the
callable, and routes the bound task by caller identity: a worker's task is
pushed onto that worker's own local stack (the global queue untouched), a
non-worker's task is appended to the global FIFO queue (the local stacks
untouched). -/
theorem C4_submit_routing (V : Type u) (p : thread_pool V) (tid : Nat)
    (f : Unit → V) (hlen : p.submitted_.length = p.handles_.length) :
    (p.submit tid f).1 = p.handles_.length ∧
    (p.submit tid f).2.handles_.get? p.handles_.length =
      some HandleState.pending ∧
    (p.submit tid f).2.submitted_.get? p.handles_.length = some f ∧
    (∀ i s, thread_pool.lookup_at p.worker_index_lookup_ tid = some i →
      p.local_task_queues_.get? i = some s →
      (p.submit tid f).2.global_task_queue_ = p.global_task_queue_ ∧
      (p.submit tid f).2.local_task_queues_ =
        p.local_task_queues_.set i (s.push ⟨f, p.handles_.length⟩)) ∧
    (thread_pool.lookup_at p.worker_index_lookup_ tid = none →
      (p.submit tid f).2.global_task_queue_.nodes =
        p.global_task_queue_.nodes ++ [⟨f, p.handles_.length⟩] ∧
      (p.submit tid f).2.local_task_queues_ = p.local_task_queues_) := by
  refine ⟨thread_pool.submit_fst p tid f, ?_, ?_, ?_, ?_⟩
  · rw [thread_pool.handles_submit_eq]
    exact thread_pool.pget_concat_self _ _
  · rw [thread_pool.submitted_submit_eq,
      show p.handles_.length = p.submitted_.length from hlen.symm]
    exact thread_pool.pget_concat_self _ _
  · intro i s hlk hget
    unfold thread_pool.submit
    dsimp only
    rw [hlk]
    dsimp only
    rw [hget]
    exact ⟨rfl, rfl⟩
  · intro hlk
    unfold thread_pool.submit
    dsimp only
    rw [hlk]
    exact ⟨rfl, rfl⟩

/-- C4 witness: a two-worker pool; a submission from worker 0's thread lands
on local stack 0, and a submission from a stranger thread lands on the global
queue. -/
theorem C4_submit_routing_witness :
    (thread_pool.construct Nat 2 fun i => i).submitted_.length =
      (thread_pool.construct Nat 2 fun i => i).handles_.length ∧
    thread_pool.lookup_at
      (thread_pool.construct Nat 2 fun i => i).worker_index_lookup_ 0 =
      some 0 ∧
    ((thread_pool.construct Nat 2 fun i => i).submit 0 fun _ => 42).2.local_task_queues_ =
      (thread_pool.construct Nat 2 fun i => i).local_task_queues_.set 0
        (threadsafe_stack.empty.push ⟨fun _ => 42, 0⟩) ∧
    thread_pool.lookup_at
      (thread_pool.construct Nat 2 fun i => i).worker_index_lookup_ 5 =
      none ∧
    ((thread_pool.construct Nat 2 fun i => i).submit 5 fun _ => 42).2.global_task_queue_.nodes =
      (thread_pool.construct Nat 2 fun i => i).global_task_queue_.nodes ++
        [⟨fun _ => 42, 0⟩] := by
  refine ⟨rfl, rfl, ?_, rfl, ?_⟩
  · exact ((C4_submit_routing Nat (thread_pool.construct Nat 2 fun i => i)
      0 (fun _ => 42) rfl).2.2.2.1 0 threadsafe_stack.empty rfl rfl).2
  · exact ((C4_submit_routing Nat (thread_pool.construct Nat 2 fun i => i)
      5 (fun _ => 42) rfl).2.2.2.2 rfl).1

/-- C2 counterexample: a two-worker pool whose global queue is empty and
whose only work sits on worker 0's local stack; a non-worker call to
`run_pending_task` runs nothing and returns false (the claim says it runs
worker 0's task and returns true), because the non-worker path calls
`steal_task(0)`, which visits `local[(0+i) % W]` for `i = 1 … W-1` and never
worker 0's own stack. -/
theorem C2_nonworker_drain_counterexample :
    (let p : thread_pool Nat :=
      { num_threads_ := 2
        end_flag_ := false
        worker_index_lookup_ := [(0, 0), (1, 1)]
        global_task_queue_ := ⟨[], 0⟩
        local_task_queues_ := [⟨[⟨fun _ => 42, 0⟩], 1⟩, ⟨[], 0⟩]
        handles_ := [HandleState.pending]
        submitted_ := [fun _ => 42]
        run_counts_ := [0] }
    p.global_task_queue_.nodes = [] ∧
    thread_pool.lookup_at p.worker_index_lookup_ 5 = none ∧
    (p.local_task_queues_.get? 0).map (fun s => s.top_.length) = some 1 ∧
    (p.run_pending_task 5).1 = false ∧
    (p.run_pending_task 5).2 = p) :=
  ⟨rfl, rfl, rfl, rfl, rfl⟩

/-- C2 (amended): `run_pending_task` from a non-worker thread attempts a
global task and then `steal_task(0)`, which visits only workers `1 … W-1`
and never worker 0's stack; hence in a pool state whose global queue is
empty and whose only non-empty container is worker 0's local stack, a
non-worker call runs nothing, returns false and leaves the pool
unchanged.  (The worker path attempts local, then global, then steal, as
claimed.) -/
theorem C2_run_pending_task_amended (V : Type u) (p : thread_pool V)
    (tid : Nat)
    (hnw : thread_pool.lookup_at p.worker_index_lookup_ tid = none)
    (hg : p.global_task_queue_.nodes = [])
    (hl : ∀ j s, j ≠ 0 → p.local_task_queues_.get? j = some s →
      s.top_ = []) :
    (p.run_pending_task tid =
      (let r2 := p.run_global_task
       if r2.1 then r2 else r2.2.run_stolen_task 0)) ∧
    p.run_pending_task tid = (false, p) := by
  constructor
  · unfold thread_pool.run_pending_task
    rw [hnw]
  · unfold thread_pool.run_pending_task
    rw [hnw]
    dsimp only
    rw [thread_pool.run_global_task_empty p hg]
    dsimp only
    rw [if_neg Bool.false_ne_true]
    exact thread_pool.run_stolen_task_zero_empty p hl

/-- C2 witness: the amended statement instantiated at the two-worker pool of
the counterexample scenario. -/
theorem C2_run_pending_task_amended_witness :
    (let p : thread_pool Nat :=
      { num_threads_ := 2
        end_flag_ := false
        worker_index_lookup_ := [(0, 0), (1, 1)]
        global_task_queue_ := ⟨[], 0⟩
        local_task_queues_ := [⟨[⟨fun _ => 42, 0⟩], 1⟩, ⟨[], 0⟩]
        handles_ := [HandleState.pending]
        submitted_ := [fun _ => 42]
        run_counts_ := [0] }
    thread_pool.lookup_at p.worker_index_lookup_ 5 = none ∧
    p.global_task_queue_.nodes = [] ∧
    p.run_pending_task 5 = (false, p)) := by
  refine ⟨rfl, rfl, ?_⟩
  refine (C2_run_pending_task_amended Nat
    { num_threads_ := 2
      end_flag_ := false
      worker_index_lookup_ := [(0, 0), (1, 1)]
      global_task_queue_ := ⟨[], 0⟩
      local_task_queues_ := [⟨[⟨fun _ => 42, 0⟩], 1⟩, ⟨[], 0⟩]
      handles_ := [HandleState.pending]
      submitted_ := [fun _ => 42]
      run_counts_ := [0] } 5 rfl rfl ?_).2
  intro j s hj hget
  match j, hget with
  | 1, hget => exact (Option.some.inj hget) ▸ rfl
  | n + 2, hget => exact Option.noConfusion hget

/-- C9: calling `run_pending_task` on a pool whose global queue and local
stacks are all empty runs nothing, returns false, and returns the pool state
unchanged (same global queue, local stacks and worker-identity map),
whichever thread calls it. -/
theorem C9_idempotent_drain (V : Type u) (p : thread_pool V) (tid : Nat)
    (hg : p.global_task_queue_.nodes = [])
    (hl : ∀ j s, p.local_task_queues_.get? j = some s → s.top_ = []) :
    p.run_pending_task tid = (false, p) := by
  unfold thread_pool.run_pending_task
  cases thread_pool.lookup_at p.worker_index_lookup_ tid with
  | some i =>
    dsimp only
    rw [thread_pool.run_local_task_empty p i (hl i)]
    dsimp only
    rw [if_neg Bool.false_ne_true]
    rw [thread_pool.run_global_task_empty p hg]
    dsimp only
    rw [if_neg Bool.false_ne_true]
    exact thread_pool.run_stolen_task_empty p i hl
  | none =>
    dsimp only
    rw [thread_pool.run_global_task_empty p hg]
    dsimp only
    rw [if_neg Bool.false_ne_true]
    exact thread_pool.run_stolen_task_empty p 0 hl

/-- C9 witness: a freshly constructed two-worker pool has no work; a worker's
call and a stranger's call to `run_pending_task` both return false and leave
the pool unchanged. -/
theorem C9_idempotent_drain_witness :
    ((thread_pool.construct Nat 2 fun i => i).run_pending_task 0 =
      (false, thread_pool.construct Nat 2 fun i => i)) ∧
    ((thread_pool.construct Nat 2 fun i => i).run_pending_task 5 =
      (false, thread_pool.construct Nat 2 fun i => i)) := by
  have hl : ∀ j s,
      (thread_pool.construct Nat 2 fun i => i).local_task_queues_.get? j =
        some s → s.top_ = [] := by
    intro j s h
    match j, h with
    | 0, h => exact (Option.some.inj h) ▸ rfl
    | 1, h => exact (Option.some.inj h) ▸ rfl
    | n + 2, h => exact Option.noConfusion h
  exact ⟨C9_idempotent_drain Nat _ 0 rfl hl, C9_idempotent_drain Nat _ 5 rfl hl⟩

/-- C10: moving a `task` (by move construction or move assignment) leaves the
source's `function_ptr_` null, so invoking the moved-from task dereferences a
null pointer — the error branch of the total embedding — while the
destination keeps the wrapped callable and a freshly constructed, unrun task
always invokes its callable and never reaches that branch. -/
theorem C10_task_move_nulls_source (V : Type u) (t dst : task V)
    (f : Unit → V) :
    t.move_construct.2.function_ptr_ = none ∧
    t.move_construct.2.invoke = none ∧
    (task.move_assign dst t).2.function_ptr_ = none ∧
    (task.move_assign dst t).2.invoke = none ∧
    t.move_construct.1.function_ptr_ = t.function_ptr_ ∧
    (task.of_callable f).invoke = some (f ()) ∧
    (task.of_callable f).invoke ≠ none := by
  refine ⟨rfl, rfl, rfl, rfl, rfl, rfl, ?_⟩
  intro h
  exact Option.noConfusion h

end mkr
